import Mathlib

/-!
Verification of the helix-media-log repository: a durable, rotating,
per-key append log stored in a blob store (S3), fed by an SQS grouping
pipeline and an SQS-triggered delivery handler.

The development shallowly embeds the three source components:
  * `MediaLog` (src/s3/MediaLog.js): the append log store;
  * the grouping pipeline `doRun`/`addMessage` (src/events.js);
  * the delivery handler `processMessage`/`doRun`/`run` (src/trigger.js).

External collaborators (S3, SQS, gzip, JSON) are modelled at their
interface boundaries: the blob store is a map from path to blob, the
queue delivers already-received message lists, and gzip/JSON sizes are
environment parameters recorded at write time.
-/

namespace MediaLogModel

/-! ## Newline join/split (JS `Array.join('\n')` / `String.split('\n')`)

The index file is stored as a newline-joined text blob
(`logFiles.join('\n')`) and read back with `logContents.split('\n')`.
We model these two JavaScript primitives on the character-list level
exactly: `splitCh` mirrors `String.prototype.split` with a single-char
separator (so `splitCh [] = [[]]`, like `''.split('\n') === ['']`), and
`joinCh` mirrors `Array.prototype.join`. -/

/-- JS `s.split('\n')` on the character list of `s`. -/
def splitCh : List Char → List (List Char)
  | [] => [[]]
  | c :: cs =>
    match splitCh cs with
    | [] => [[c]]
    | h :: t => if c = '\n' then [] :: h :: t else (c :: h) :: t

/-- JS `lines.join('\n')` on character lists. -/
def joinCh : List (List Char) → List Char
  | [] => []
  | [l] => l
  | l :: l₂ :: ls => l ++ '\n' :: joinCh (l₂ :: ls)

theorem splitCh_ne_nil (l : List Char) : splitCh l ≠ [] := by
  induction l with
  | nil => simp [splitCh]
  | cons c cs ih =>
    simp only [splitCh]
    cases h : splitCh cs with
    | nil => simp
    | cons h t =>
      by_cases hc : c = '\n' <;> simp [hc]

theorem splitCh_cons_nl (cs : List Char) : splitCh ('\n' :: cs) = [] :: splitCh cs := by
  simp only [splitCh]
  cases h : splitCh cs with
  | nil => exact absurd h (splitCh_ne_nil cs)
  | cons h t => simp

theorem splitCh_append (l m : List Char) (hl : '\n' ∉ l) :
    splitCh (l ++ m) = (l ++ (splitCh m).headI) :: (splitCh m).tail := by
  induction l with
  | nil =>
    simp only [List.nil_append]
    cases h : splitCh m with
    | nil => exact absurd h (splitCh_ne_nil m)
    | cons h t => simp
  | cons c cs ih =>
    have hc : c ≠ '\n' := fun h => hl (h ▸ List.mem_cons_self c cs)
    have hcs : '\n' ∉ cs := fun h => hl (List.mem_cons_of_mem c h)
    simp only [List.cons_append, splitCh, List.append_eq]
    rw [ih hcs]
    simp [hc]

theorem splitCh_joinCh (ls : List (List Char)) (hne : ls ≠ [])
    (hnl : ∀ l ∈ ls, '\n' ∉ l) : splitCh (joinCh ls) = ls := by
  induction ls with
  | nil => exact absurd rfl hne
  | cons l ls ih =>
    cases ls with
    | nil =>
      have h1 : '\n' ∉ l := hnl l (List.mem_cons_self l [])
      have := splitCh_append l [] h1
      simpa [joinCh, splitCh] using this
    | cons l₂ ls₂ =>
      have h1 : '\n' ∉ l := hnl l (List.mem_cons_self _ _)
      have h2 : ∀ x ∈ l₂ :: ls₂, '\n' ∉ x := fun x hx => hnl x (List.mem_cons_of_mem _ hx)
      have hrec := ih (by simp) h2
      simp only [joinCh, splitCh_append l ('\n' :: joinCh (l₂ :: ls₂)) h1,
        splitCh_cons_nl, hrec]
      simp

/-- The string stored as the index body: `logFiles.join('\n')`. -/
def joinNL (ls : List String) : String := String.mk (joinCh (ls.map String.data))

/-- The lines recovered from the index body: `logContents.split('\n')`. -/
def splitNLStr (s : String) : List String := (splitCh s.data).map String.mk

/-- A well-formed log file identifier: free of the newline separator.
`generateID()` produces `DateFormat.format(date) + '-' + hex`, which never
contains a newline. -/
def goodId (s : String) : Prop := '\n' ∉ s.data

instance (s : String) : Decidable (goodId s) := by unfold goodId; infer_instance

theorem string_mk_data (s : String) : String.mk s.data = s := by cases s; rfl

theorem string_data_inj {a b : String} (h : a.data = b.data) : a = b := by
  cases a; cases b; exact congrArg String.mk h

theorem string_data_append (a b : String) : (a ++ b).data = a.data ++ b.data := by
  cases a; cases b; rfl

theorem splitNLStr_joinNL (ls : List String) (hne : ls ≠ [])
    (hnl : ∀ s ∈ ls, goodId s) : splitNLStr (joinNL ls) = ls := by
  unfold splitNLStr joinNL
  rw [show (String.mk (joinCh (ls.map String.data))).data = joinCh (ls.map String.data) from rfl]
  rw [splitCh_joinCh (ls.map String.data) (by simpa using hne)
    (by intro l hl
        rcases List.mem_map.1 hl with ⟨s, hs, rfl⟩
        exact hnl s hs)]
  rw [List.map_map]
  exact List.map_id'' string_mk_data ls

/-! ## Data model of the append log store (src/s3/MediaLog.js) -/

/-- One media event (`MediaEvent` in the spec). The `timestamp` drives the
`last-event-time` metadata; all remaining attributes (`operation`,
`mediaHash`, `contentType`, `user`, `path`, ...) are opaque to the log
store and collapsed into `payload`. -/
structure MediaRecord where
  timestamp : Nat
  payload : String
deriving DecidableEq, Repr, Inhabited

/-- A stored blob. The index file is plain text; a log file is a
gzip-compressed JSON array. For a log file we record
  * `contentLength`: the stored byte size of the object, i.e. the length
    of `gzip(JSON.stringify(contents))` — this is what S3 reports as
    `ContentLength` on `GetObject` and what `#fetchLogFile` compares
    against `MAX_OBJECT_SIZE`;
  * `uncompressedLength`: the length of `JSON.stringify(contents)`
    (the gunzipped body) — recorded but never inspected by the code;
  * `contents`: the decoded JSON array of records;
  * `lastEventTime`: the `last-event-time` metadata attribute. -/
inductive Blob where
  | text (body : String)
  | gz (contentLength : Nat) (uncompressedLength : Nat)
      (contents : List MediaRecord) (lastEventTime : String)
deriving DecidableEq, Repr

/-- The blob store: a key-addressed map, `none` meaning 404/NoSuchKey. -/
def Store := String → Option Blob

def Store.empty : Store := fun _ => none

def Store.put (st : Store) (p : String) (b : Blob) : Store :=
  fun q => if q = p then some b else st q

/-- One blob-store operation, for the operation traces (`GetObjectCommand`
and `PutObjectCommand` sends). -/
inductive SOp where
  | get (path : String)
  | put (path : String) (blob : Blob)
deriving DecidableEq, Repr

/-- Replay the `put`s of a trace onto a store (gets do not change it). -/
def applySOps (st : Store) (ops : List SOp) : Store :=
  ops.foldl (fun s op => match op with
    | SOp.get _ => s
    | SOp.put p b => s.put p b) st

/-- `MAX_OBJECT_SIZE = 512 * 1024`: threshold size to allow in one log file. -/
def MAX_OBJECT_SIZE : Nat := 512 * 1024

/-- The environment of one `append` call: the sizes the gzip/JSON
libraries would produce (external collaborators, parameters of the
model), `DateFormat.format` on epoch milliseconds, and the value
`generateID()` returns if a new log file has to be created. -/
structure AppendEnv where
  gzLen : List MediaRecord → Nat
  jsonLen : List MediaRecord → Nat
  fmt : Nat → String
  newId : String

/-- The `MediaLog` instance state (`org` and `site` option fields). -/
structure MediaLog where
  org : String
  site : String

namespace MediaLog

/-- The `${org}/${site}/` key prefix used for all objects of this log. -/
def basePath (ml : MediaLog) : String := ml.org ++ "/" ++ ml.site ++ "/"

/-- `${org}/${site}/${INDEX_FILE}` with `INDEX_FILE = '.index'`. -/
def indexPath (ml : MediaLog) : String := ml.basePath ++ ".index"

/-- `${org}/${site}/${id}` — a log file key, without the `.gz` suffix
(the suffix is added by `#fetchLogFile` / `#storeLogFile`). -/
def objectKey (ml : MediaLog) (id : String) : String := ml.basePath ++ id

/-- `#fetchIndex`: fetch the index object and split it on newlines;
a 404 is treated as an empty index. Returns the lines together with the
blob operations performed. -/
def fetchIndex (ml : MediaLog) (st : Store) : List String × List SOp :=
  match st ml.indexPath with
  | some (Blob.text body) => (splitNLStr body, [SOp.get ml.indexPath])
  | some (Blob.gz _ _ _ _) => ([], [SOp.get ml.indexPath])
  | none => ([], [SOp.get ml.indexPath])

/-- `#fetchLogFile`: fetch `${key}.gz`; returns `none` when the object is
missing (404) or its stored `ContentLength` is not `< MAX_OBJECT_SIZE`. -/
def fetchLogFile (_ml : MediaLog) (st : Store) (key : String) :
    Option (String × List MediaRecord) × List SOp :=
  match st (key ++ ".gz") with
  | some (Blob.gz len _ contents _) =>
    (if len < MAX_OBJECT_SIZE then some (key, contents) else none, [SOp.get (key ++ ".gz")])
  | some (Blob.text _) => (none, [SOp.get (key ++ ".gz")])
  | none => (none, [SOp.get (key ++ ".gz")])

/-- `getOrCreateLogObject`: return the last-listed log file if it is
eligible; otherwise push a fresh id onto the index list, persist the
updated index, and return the new (empty) log object. -/
def getOrCreateLogObject (ml : MediaLog) (env : AppendEnv) (st : Store) :
    (String × List MediaRecord) × Store × List SOp :=
  let fi := ml.fetchIndex st
  let logFiles := fi.1
  let fl := if logFiles.length ≠ 0 then
      ml.fetchLogFile st (ml.objectKey (logFiles.getLastD ""))
    else (none, [])
  match fl.1 with
  | some logFile => (logFile, st, fi.2 ++ fl.2)
  | none =>
    let logFiles2 := logFiles ++ [env.newId]
    let body := Blob.text (joinNL logFiles2)
    ((ml.objectKey (logFiles2.getLastD ""), []),
      st.put ml.indexPath body,
      fi.2 ++ fl.2 ++ [SOp.put ml.indexPath body])

/-- `#storeLogFile`: gzip the JSON array and put it at `${key}.gz` with
the `last-event-time` metadata. -/
def storeLogFile (env : AppendEnv) (st : Store) (key : String)
    (contents : List MediaRecord) (meta : String) : Store × List SOp :=
  let b := Blob.gz (env.gzLen contents) (env.jsonLen contents) contents meta
  (st.put (key ++ ".gz") b, [SOp.put (key ++ ".gz") b])

/-- `append(updates)`: returns the stored object key (or `null` for an
empty update list), the new store state, and the blob operations made. -/
def append (ml : MediaLog) (env : AppendEnv) (st : Store)
    (updates : List MediaRecord) : Option String × Store × List SOp :=
  if updates.length ≠ 0 then
    let go := ml.getOrCreateLogObject env st
    let key := go.1.1
    let contents := go.1.2
    let lastEventTime := (updates.getLastD ⟨0, ""⟩).timestamp
    let contents2 := contents ++ updates
    let so := storeLogFile env go.2.1 key contents2 (env.fmt lastEventTime)
    (some (key ++ ".gz"), so.1, go.2.2 ++ so.2)
  else
    (none, st, [])

/-- A sequence of `append` calls (one environment id per call). -/
def runAppends (ml : MediaLog) (gzL jsonL : List MediaRecord → Nat)
    (fm : Nat → String) : Store → List (List MediaRecord × String) → Store
  | st, [] => st
  | st, (updates, id) :: rest =>
    ml.runAppends gzL jsonL fm (ml.append ⟨gzL, jsonL, fm, id⟩ st updates).2.1 rest

/-- The index entries an independent reader recovers from the store. -/
def indexLines (ml : MediaLog) (st : Store) : List String := (ml.fetchIndex st).1

/-- Modelled from the spec: the repository contains no reader, so this
follows the spec's testable property "a read of the Index + the listed
log files yields all previously appended records in original order" and
the documented formats (§6): read the index, then concatenate the decoded
contents of each listed `.gz` log file in index order. -/
def readBack (ml : MediaLog) (st : Store) : List MediaRecord :=
  (ml.indexLines st).flatMap (fun id =>
    match st (ml.objectKey id ++ ".gz") with
    | some (Blob.gz _ _ contents _) => contents
    | _ => [])

/-- Whether an eligible current file exists (index non-empty and its
last-listed object present below the size threshold): the condition
under which `getOrCreateLogObject` does not create a new file. -/
def hasEligible (ml : MediaLog) (st : Store) : Prop :=
  (ml.fetchIndex st).1 ≠ [] ∧
    ((ml.fetchLogFile st (ml.objectKey ((ml.fetchIndex st).1.getLastD ""))).1).isSome

instance (ml : MediaLog) (st : Store) : Decidable (ml.hasEligible st) := by
  unfold hasEligible; infer_instance

end MediaLog

/-! ## Path and store facts -/

theorem getLast?_append_right {α : Type _} (l1 l2 : List α) (h : l2 ≠ []) :
    (l1 ++ l2).getLast? = l2.getLast? :=
  List.getLast?_append_of_ne_nil l1 h

theorem Store.put_same (st : Store) (p : String) (b : Blob) : (st.put p b) p = some b := by
  simp [Store.put]

theorem Store.put_other (st : Store) (p : String) (b : Blob) (q : String) (h : q ≠ p) :
    (st.put p b) q = st q := by
  simp [Store.put, h]

/-- The index path never collides with any `.gz` log object path
(the former ends in `x`, the latter in `z`). -/
theorem indexPath_ne_gz (ml : MediaLog) (key : String) : ml.indexPath ≠ key ++ ".gz" := by
  intro h
  have hd := congrArg String.data h
  rw [show ml.indexPath = ml.basePath ++ ".index" from rfl] at hd
  rw [string_data_append, string_data_append] at hd
  have h2 := congrArg List.getLast? hd
  rw [getLast?_append_right _ _ (by decide), getLast?_append_right _ _ (by decide)] at h2
  exact absurd h2 (by decide)

theorem append_gz_inj {a b : String} (h : a ++ ".gz" = b ++ ".gz") : a = b := by
  have hd := congrArg String.data h
  rw [string_data_append, string_data_append] at hd
  exact string_data_inj (List.append_cancel_right hd)

theorem objectKey_inj (ml : MediaLog) {a b : String} (h : ml.objectKey a = ml.objectKey b) :
    a = b := by
  have hd := congrArg String.data h
  rw [show ml.objectKey a = ml.basePath ++ a from rfl,
    show ml.objectKey b = ml.basePath ++ b from rfl, string_data_append,
    string_data_append] at hd
  exact string_data_inj (List.append_cancel_left hd)

/-! ## Shape lemmas for the append path -/

namespace MediaLog

theorem fetchIndex_of_none (ml : MediaLog) (st : Store) (h : st ml.indexPath = none) :
    ml.fetchIndex st = ([], [SOp.get ml.indexPath]) := by
  unfold fetchIndex
  rw [h]

theorem fetchIndex_of_text (ml : MediaLog) (st : Store) (ids : List String)
    (hids : ids ≠ []) (hgood : ∀ i ∈ ids, goodId i)
    (h : st ml.indexPath = some (Blob.text (joinNL ids))) :
    ml.fetchIndex st = (ids, [SOp.get ml.indexPath]) := by
  unfold fetchIndex
  rw [h]
  dsimp only
  rw [splitNLStr_joinNL ids hids hgood]

theorem indexLines_of_text (ml : MediaLog) (st : Store) (ids : List String)
    (hids : ids ≠ []) (hgood : ∀ i ∈ ids, goodId i)
    (h : st ml.indexPath = some (Blob.text (joinNL ids))) :
    ml.indexLines st = ids := by
  unfold indexLines
  rw [fetchIndex_of_text ml st ids hids hgood h]

theorem getOrCreate_eligible (ml : MediaLog) (env : AppendEnv) (st : Store)
    (ids : List String) (len ulen : Nat) (c : List MediaRecord) (m : String)
    (hids : ids ≠ []) (hgood : ∀ i ∈ ids, goodId i)
    (hidx : st ml.indexPath = some (Blob.text (joinNL ids)))
    (hobj : st (ml.objectKey (ids.getLastD "") ++ ".gz") = some (Blob.gz len ulen c m))
    (hlt : len < MAX_OBJECT_SIZE) :
    ml.getOrCreateLogObject env st =
      ((ml.objectKey (ids.getLastD ""), c), st,
        [SOp.get ml.indexPath, SOp.get (ml.objectKey (ids.getLastD "") ++ ".gz")]) := by
  unfold getOrCreateLogObject fetchLogFile
  rw [fetchIndex_of_text ml st ids hids hgood hidx]
  rw [List.getLastD_eq_getLast?] at hobj
  simp [hobj, hids, hlt]

theorem getOrCreate_rotate (ml : MediaLog) (env : AppendEnv) (st : Store)
    (ids : List String) (len ulen : Nat) (c : List MediaRecord) (m : String)
    (hids : ids ≠ []) (hgood : ∀ i ∈ ids, goodId i)
    (hidx : st ml.indexPath = some (Blob.text (joinNL ids)))
    (hobj : st (ml.objectKey (ids.getLastD "") ++ ".gz") = some (Blob.gz len ulen c m))
    (hge : ¬ len < MAX_OBJECT_SIZE) :
    ml.getOrCreateLogObject env st =
      ((ml.objectKey env.newId, []),
        st.put ml.indexPath (Blob.text (joinNL (ids ++ [env.newId]))),
        [SOp.get ml.indexPath, SOp.get (ml.objectKey (ids.getLastD "") ++ ".gz"),
          SOp.put ml.indexPath (Blob.text (joinNL (ids ++ [env.newId])))]) := by
  unfold getOrCreateLogObject fetchLogFile
  rw [fetchIndex_of_text ml st ids hids hgood hidx]
  rw [List.getLastD_eq_getLast?] at hobj
  simp [hobj, hids, hge, List.getLastD_concat]

theorem getOrCreate_missingFile (ml : MediaLog) (env : AppendEnv) (st : Store)
    (ids : List String)
    (hids : ids ≠ []) (hgood : ∀ i ∈ ids, goodId i)
    (hidx : st ml.indexPath = some (Blob.text (joinNL ids)))
    (hobj : st (ml.objectKey (ids.getLastD "") ++ ".gz") = none) :
    ml.getOrCreateLogObject env st =
      ((ml.objectKey env.newId, []),
        st.put ml.indexPath (Blob.text (joinNL (ids ++ [env.newId]))),
        [SOp.get ml.indexPath, SOp.get (ml.objectKey (ids.getLastD "") ++ ".gz"),
          SOp.put ml.indexPath (Blob.text (joinNL (ids ++ [env.newId])))]) := by
  unfold getOrCreateLogObject fetchLogFile
  rw [fetchIndex_of_text ml st ids hids hgood hidx]
  rw [List.getLastD_eq_getLast?] at hobj
  simp [hobj, hids, List.getLastD_concat]

theorem fetchLogFile_ops (ml : MediaLog) (st : Store) (key : String) :
    (ml.fetchLogFile st key).2 = [SOp.get (key ++ ".gz")] := by
  unfold fetchLogFile
  rcases st (key ++ ".gz") with _ | b
  · rfl
  · rcases b with _ | _
    · rfl
    · rfl

theorem getOrCreate_notEligible (ml : MediaLog) (env : AppendEnv) (st : Store)
    (ids : List String)
    (hids : ids ≠ []) (hgood : ∀ i ∈ ids, goodId i)
    (hidx : st ml.indexPath = some (Blob.text (joinNL ids)))
    (hfl : (ml.fetchLogFile st (ml.objectKey (ids.getLastD ""))).1 = none) :
    ml.getOrCreateLogObject env st =
      ((ml.objectKey env.newId, []),
        st.put ml.indexPath (Blob.text (joinNL (ids ++ [env.newId]))),
        [SOp.get ml.indexPath, SOp.get (ml.objectKey (ids.getLastD "") ++ ".gz"),
          SOp.put ml.indexPath (Blob.text (joinNL (ids ++ [env.newId])))]) := by
  unfold getOrCreateLogObject
  rw [fetchIndex_of_text ml st ids hids hgood hidx]
  have hlen : ids.length ≠ 0 := by simpa [List.length_eq_zero] using hids
  dsimp only
  rw [if_pos hlen, hfl, fetchLogFile_ops]
  simp [List.getLastD_concat]

theorem getOrCreate_emptyIndex (ml : MediaLog) (env : AppendEnv) (st : Store)
    (hidx : st ml.indexPath = none) :
    ml.getOrCreateLogObject env st =
      ((ml.objectKey env.newId, []),
        st.put ml.indexPath (Blob.text (joinNL [env.newId])),
        [SOp.get ml.indexPath, SOp.put ml.indexPath (Blob.text (joinNL [env.newId]))]) := by
  unfold getOrCreateLogObject fetchLogFile
  rw [fetchIndex_of_none ml st hidx]
  simp [List.getLastD]

theorem append_of_getOrCreate (ml : MediaLog) (env : AppendEnv) (st : Store)
    (updates : List MediaRecord) (k : String) (c : List MediaRecord)
    (st1 : Store) (ops : List SOp)
    (hne : updates ≠ [])
    (h : ml.getOrCreateLogObject env st = ((k, c), st1, ops)) :
    ml.append env st updates =
      (some (k ++ ".gz"),
        st1.put (k ++ ".gz")
          (Blob.gz (env.gzLen (c ++ updates)) (env.jsonLen (c ++ updates)) (c ++ updates)
            (env.fmt ((updates.getLastD ⟨0, ""⟩).timestamp))),
        ops ++ [SOp.put (k ++ ".gz")
          (Blob.gz (env.gzLen (c ++ updates)) (env.jsonLen (c ++ updates)) (c ++ updates)
            (env.fmt ((updates.getLastD ⟨0, ""⟩).timestamp)))]) := by
  unfold append
  have hlen : updates.length ≠ 0 := by simpa [List.length_eq_zero] using hne
  rw [if_pos hlen, h]
  rfl

end MediaLog

/-- C5: for every key and store state (whether or not any log file
exists), `append(key, [])` returns `null`, leaves the store unchanged,
and performs zero blob-store reads and zero writes. -/
theorem c5_empty_append_noop (ml : MediaLog) (env : AppendEnv) (st : Store) :
    ml.append env st [] = (none, st, []) := rfl

theorem goodId_append_one {ids : List String} {a : String}
    (hgood : ∀ i ∈ ids, goodId i) (ha : goodId a) :
    ∀ i ∈ ids ++ [a], goodId i := by
  intro i hi
  rcases List.mem_append.1 hi with h | h
  · exact hgood i h
  · rw [List.mem_singleton.1 h]; exact ha

/-- The state left by an `append` that rotated to a fresh file. -/
theorem append_rotated_state (ml : MediaLog) (env : AppendEnv) (st : Store)
    (ids : List String) (updates : List MediaRecord)
    (hgood : ∀ i ∈ ids, goodId i) (hgnew : goodId env.newId)
    (hcreate : ml.getOrCreateLogObject env st =
      ((ml.objectKey env.newId, []),
        st.put ml.indexPath (Blob.text (joinNL (ids ++ [env.newId]))),
        [SOp.get ml.indexPath, SOp.get (ml.objectKey (ids.getLastD "") ++ ".gz"),
          SOp.put ml.indexPath (Blob.text (joinNL (ids ++ [env.newId])))]))
    (hups : updates ≠ []) :
    ml.indexLines (ml.append env st updates).2.1 = ids ++ [env.newId]
    ∧ (ml.append env st updates).2.1 (ml.objectKey env.newId ++ ".gz")
        = some (Blob.gz (env.gzLen updates) (env.jsonLen updates) updates
            (env.fmt ((updates.getLastD ⟨0, ""⟩).timestamp)))
    ∧ (ml.append env st updates).1 = some (ml.objectKey env.newId ++ ".gz") := by
  have hap := ml.append_of_getOrCreate env st updates _ _ _ _ hups hcreate
  rw [hap]
  have hidx' : ((st.put ml.indexPath (Blob.text (joinNL (ids ++ [env.newId])))).put
      (ml.objectKey env.newId ++ ".gz")
      (Blob.gz (env.gzLen ([] ++ updates)) (env.jsonLen ([] ++ updates)) ([] ++ updates)
        (env.fmt ((updates.getLastD ⟨0, ""⟩).timestamp)))) ml.indexPath
      = some (Blob.text (joinNL (ids ++ [env.newId]))) := by
    rw [Store.put_other _ _ _ _ (indexPath_ne_gz ml _)]
    exact Store.put_same _ _ _
  refine ⟨?_, ?_, rfl⟩
  · exact ml.indexLines_of_text _ (ids ++ [env.newId]) (by simp)
      (goodId_append_one hgood hgnew) hidx'
  · show Store.put _ _ _ _ = _
    rw [Store.put_same]
    simp

/-- The complete threshold behaviour of one (or two chained) `append`
calls against a stored current file, shared by the claims about the
rotation boundary. -/
theorem append_threshold_behavior (ml : MediaLog) (env env2 : AppendEnv) (st : Store)
    (ids : List String) (len ulen : Nat) (c : List MediaRecord) (m : String)
    (updates updates2 : List MediaRecord)
    (hids : ids ≠ []) (hgood : ∀ i ∈ ids, goodId i)
    (hidx : st ml.indexPath = some (Blob.text (joinNL ids)))
    (hobj : st (ml.objectKey (ids.getLastD "") ++ ".gz") = some (Blob.gz len ulen c m))
    (hups : updates ≠ []) (hups2 : updates2 ≠ [])
    (hgnew : goodId env.newId) (hgnew2 : goodId env2.newId) :
    (MAX_OBJECT_SIZE ≤ len →
      ml.indexLines (ml.append env st updates).2.1 = ids ++ [env.newId]
      ∧ (ml.indexLines (ml.append env st updates).2.1).length = ids.length + 1
      ∧ (ml.append env st updates).2.1 (ml.objectKey env.newId ++ ".gz")
          = some (Blob.gz (env.gzLen updates) (env.jsonLen updates) updates
              (env.fmt ((updates.getLastD ⟨0, ""⟩).timestamp)))
      ∧ (ml.append env st updates).1 = some (ml.objectKey env.newId ++ ".gz"))
    ∧ (len < MAX_OBJECT_SIZE →
      ml.indexLines (ml.append env st updates).2.1 = ids
      ∧ (ml.append env st updates).2.1 ml.indexPath = st ml.indexPath
      ∧ (ml.append env st updates).2.1 (ml.objectKey (ids.getLastD "") ++ ".gz")
          = some (Blob.gz (env.gzLen (c ++ updates)) (env.jsonLen (c ++ updates))
              (c ++ updates) (env.fmt ((updates.getLastD ⟨0, ""⟩).timestamp)))
      ∧ (ml.append env st updates).1 = some (ml.objectKey (ids.getLastD "") ++ ".gz"))
    ∧ (len < MAX_OBJECT_SIZE → MAX_OBJECT_SIZE ≤ env.gzLen (c ++ updates) →
      ml.indexLines (ml.append env2 (ml.append env st updates).2.1 updates2).2.1
        = ids ++ [env2.newId]) := by
  refine ⟨?_, ?_, ?_⟩
  · intro hge
    have hgo := ml.getOrCreate_rotate env st ids len ulen c m hids hgood hidx hobj
      (not_lt.2 hge)
    have h := append_rotated_state ml env st ids updates hgood hgnew hgo hups
    exact ⟨h.1, by rw [h.1]; simp, h.2.1, h.2.2⟩
  · intro hlt
    have hgo := ml.getOrCreate_eligible env st ids len ulen c m hids hgood hidx hobj hlt
    have hap := ml.append_of_getOrCreate env st updates _ _ _ _ hups hgo
    rw [hap]
    dsimp only
    have hidx' : (st.put (ml.objectKey (ids.getLastD "") ++ ".gz")
        (Blob.gz (env.gzLen (c ++ updates)) (env.jsonLen (c ++ updates)) (c ++ updates)
          (env.fmt ((updates.getLastD ⟨0, ""⟩).timestamp)))) ml.indexPath
        = st ml.indexPath := Store.put_other _ _ _ _ (indexPath_ne_gz ml _)
    refine ⟨?_, hidx', ?_, rfl⟩
    · exact ml.indexLines_of_text _ ids hids hgood (by rw [hidx']; exact hidx)
    · exact Store.put_same _ _ _
  · intro hlt hge2
    have hgo := ml.getOrCreate_eligible env st ids len ulen c m hids hgood hidx hobj hlt
    have hap := ml.append_of_getOrCreate env st updates _ _ _ _ hups hgo
    have hidx' : (ml.append env st updates).2.1 ml.indexPath
        = some (Blob.text (joinNL ids)) := by
      rw [hap]
      show Store.put _ _ _ _ = _
      rw [Store.put_other _ _ _ _ (indexPath_ne_gz ml _)]
      exact hidx
    have hobj' : (ml.append env st updates).2.1 (ml.objectKey (ids.getLastD "") ++ ".gz")
        = some (Blob.gz (env.gzLen (c ++ updates)) (env.jsonLen (c ++ updates))
            (c ++ updates) (env.fmt ((updates.getLastD ⟨0, ""⟩).timestamp))) := by
      rw [hap]
      exact Store.put_same _ _ _
    have hgo2 := ml.getOrCreate_rotate env2 (ml.append env st updates).2.1 ids
      (env.gzLen (c ++ updates)) (env.jsonLen (c ++ updates)) (c ++ updates)
      (env.fmt ((updates.getLastD ⟨0, ""⟩).timestamp)) hids hgood hidx' hobj'
      (not_lt.2 hge2)
    exact (append_rotated_state ml env2 (ml.append env st updates).2.1 ids updates2
      hgood hgnew2 hgo2 hups2).1

/-! Concrete instances used by the witnesses below. -/

def mlW : MediaLog := ⟨"o", "s"⟩

def recW : MediaRecord := ⟨5, "x"⟩

/-- A store holding an index `["A"]` and a 600000-byte stored log file. -/
def stW : Store := fun p =>
  if p = "o/s/.index" then some (Blob.text (joinNL ["A"]))
  else if p = "o/s/A.gz" then some (Blob.gz 600000 600000 [recW] "") else none

def envW : AppendEnv := ⟨fun l => 100 * l.length, fun l => 600000 * l.length, fun _ => "", "B"⟩

def envW2 : AppendEnv := ⟨fun l => 100 * l.length, fun l => 600000 * l.length, fun _ => "", "C"⟩

/-- C2: for a key with a non-empty index whose last-listed log file is
stored, an `append` of a non-empty batch creates a new file and grows the
index by exactly one entry when the stored size is at or above
`MAX_OBJECT_SIZE` (512 KiB), and reuses the file leaving the index
untouched when the stored size is below the threshold. The check is made
against the previously stored size only: an append that pushes the file
over the threshold still lands in the same file, and the following append
is the one that rotates. -/
theorem c2_rotation_boundary (ml : MediaLog) (env env2 : AppendEnv) (st : Store)
    (ids : List String) (len ulen : Nat) (c : List MediaRecord) (m : String)
    (updates updates2 : List MediaRecord)
    (hids : ids ≠ []) (hgood : ∀ i ∈ ids, goodId i)
    (hidx : st ml.indexPath = some (Blob.text (joinNL ids)))
    (hobj : st (ml.objectKey (ids.getLastD "") ++ ".gz") = some (Blob.gz len ulen c m))
    (hups : updates ≠ []) (hups2 : updates2 ≠ [])
    (hgnew : goodId env.newId) (hgnew2 : goodId env2.newId) :
    (MAX_OBJECT_SIZE ≤ len →
      ml.indexLines (ml.append env st updates).2.1 = ids ++ [env.newId]
      ∧ (ml.indexLines (ml.append env st updates).2.1).length = ids.length + 1
      ∧ (ml.append env st updates).2.1 (ml.objectKey env.newId ++ ".gz")
          = some (Blob.gz (env.gzLen updates) (env.jsonLen updates) updates
              (env.fmt ((updates.getLastD ⟨0, ""⟩).timestamp)))
      ∧ (ml.append env st updates).1 = some (ml.objectKey env.newId ++ ".gz"))
    ∧ (len < MAX_OBJECT_SIZE →
      ml.indexLines (ml.append env st updates).2.1 = ids
      ∧ (ml.append env st updates).2.1 ml.indexPath = st ml.indexPath
      ∧ (ml.append env st updates).2.1 (ml.objectKey (ids.getLastD "") ++ ".gz")
          = some (Blob.gz (env.gzLen (c ++ updates)) (env.jsonLen (c ++ updates))
              (c ++ updates) (env.fmt ((updates.getLastD ⟨0, ""⟩).timestamp)))
      ∧ (ml.append env st updates).1 = some (ml.objectKey (ids.getLastD "") ++ ".gz"))
    ∧ (len < MAX_OBJECT_SIZE → MAX_OBJECT_SIZE ≤ env.gzLen (c ++ updates) →
      ml.indexLines (ml.append env2 (ml.append env st updates).2.1 updates2).2.1
        = ids ++ [env2.newId]) :=
  append_threshold_behavior ml env env2 st ids len ulen c m updates updates2 hids hgood
    hidx hobj hups hups2 hgnew hgnew2

theorem c2_rotation_boundary_witness :
    stW mlW.indexPath = some (Blob.text (joinNL ["A"]))
    ∧ stW (mlW.objectKey ((["A"] : List String).getLastD "") ++ ".gz")
        = some (Blob.gz 600000 600000 [recW] "")
    ∧ MAX_OBJECT_SIZE ≤ 600000
    ∧ mlW.indexLines (mlW.append envW stW [recW]).2.1 = ["A", "B"] := by
  refine ⟨by decide, by decide, by decide, ?_⟩
  have h := (c2_rotation_boundary mlW envW envW2 stW ["A"] 600000 600000 [recW] ""
    [recW] [recW] (by decide) (by decide) (by decide) (by decide) (by decide) (by decide)
    (by decide) (by decide)).1 (by decide)
  exact h.1

/-- A gzip model that halves the serialized size (a realistic compression
ratio): the JSON body of one record is 600000 bytes, its gzipped form
300000 bytes. -/
def envX : AppendEnv := ⟨fun l => 300000 * l.length, fun l => 600000 * l.length, fun _ => "", "A"⟩

def envX2 : AppendEnv := ⟨fun l => 300000 * l.length, fun l => 600000 * l.length, fun _ => "", "B"⟩

/-- The store reached by one `append` of one record from an empty store
under `envX`: index `["A"]`, log file `A` stored at 300000 bytes with an
uncompressed size of 600000 bytes. -/
def stX1 : Store := (mlW.append envX Store.empty [recW]).2.1

/-- C3 counterexample: a reachable state in which the current log file's
uncompressed size (600000) is at or above the 512 KiB threshold, yet the
next non-empty append still reuses that file — the index does not grow,
no new file is created, and the records land in the same file — because
the code compares the stored (compressed) `ContentLength` (300000),
not the uncompressed size, against `MAX_OBJECT_SIZE`. -/
theorem c3_counterexample :
    mlW.indexLines stX1 = ["A"]
    ∧ stX1 (mlW.objectKey "A" ++ ".gz") = some (Blob.gz 300000 600000 [recW] "")
    ∧ MAX_OBJECT_SIZE ≤ 600000
    ∧ mlW.indexLines (mlW.append envX2 stX1 [recW]).2.1 = ["A"]
    ∧ (mlW.append envX2 stX1 [recW]).2.1 (mlW.objectKey "A" ++ ".gz")
        = some (Blob.gz 600000 1200000 [recW, recW] "")
    ∧ (mlW.append envX2 stX1 [recW]).2.1 (mlW.objectKey "B" ++ ".gz") = none := by
  refine ⟨by decide, by decide, by decide, by decide, by decide, by decide⟩

/-- C3 amended: eligibility of the last-listed log file is decided by its
stored (compressed) object size, `ContentLength`: the file receives the
new records iff it is present with stored size below 512 KiB; if it is
missing or its stored size is at or above 512 KiB, a new file is created
instead. -/
theorem c3_eligibility_stored_size (ml : MediaLog) (env : AppendEnv) (st : Store)
    (ids : List String) (updates : List MediaRecord)
    (hids : ids ≠ []) (hgood : ∀ i ∈ ids, goodId i)
    (hidx : st ml.indexPath = some (Blob.text (joinNL ids)))
    (hups : updates ≠ []) (hgnew : goodId env.newId) :
    (∀ len ulen c m,
      st (ml.objectKey (ids.getLastD "") ++ ".gz") = some (Blob.gz len ulen c m) →
      len < MAX_OBJECT_SIZE →
      ml.indexLines (ml.append env st updates).2.1 = ids
      ∧ (ml.append env st updates).2.1 (ml.objectKey (ids.getLastD "") ++ ".gz")
          = some (Blob.gz (env.gzLen (c ++ updates)) (env.jsonLen (c ++ updates))
              (c ++ updates) (env.fmt ((updates.getLastD ⟨0, ""⟩).timestamp))))
    ∧ (∀ len ulen c m,
      st (ml.objectKey (ids.getLastD "") ++ ".gz") = some (Blob.gz len ulen c m) →
      MAX_OBJECT_SIZE ≤ len →
      ml.indexLines (ml.append env st updates).2.1 = ids ++ [env.newId]
      ∧ (ml.append env st updates).2.1 (ml.objectKey env.newId ++ ".gz")
          = some (Blob.gz (env.gzLen updates) (env.jsonLen updates) updates
              (env.fmt ((updates.getLastD ⟨0, ""⟩).timestamp))))
    ∧ (st (ml.objectKey (ids.getLastD "") ++ ".gz") = none →
      ml.indexLines (ml.append env st updates).2.1 = ids ++ [env.newId]
      ∧ (ml.append env st updates).2.1 (ml.objectKey env.newId ++ ".gz")
          = some (Blob.gz (env.gzLen updates) (env.jsonLen updates) updates
              (env.fmt ((updates.getLastD ⟨0, ""⟩).timestamp)))) := by
  refine ⟨?_, ?_, ?_⟩
  · intro len ulen c m hobj hlt
    exact ((append_threshold_behavior ml env env st ids len ulen c m updates updates hids
      hgood hidx hobj hups hups hgnew hgnew).2.1 hlt).imp_right (fun h => h.2.1)
  · intro len ulen c m hobj hge
    have h := (append_threshold_behavior ml env env st ids len ulen c m updates updates hids
      hgood hidx hobj hups hups hgnew hgnew).1 hge
    exact ⟨h.1, h.2.2.1⟩
  · intro hobj
    have hgo := ml.getOrCreate_missingFile env st ids hids hgood hidx hobj
    have h := append_rotated_state ml env st ids updates hgood hgnew hgo hups
    exact ⟨h.1, h.2.1⟩

theorem c3_eligibility_stored_size_witness :
    stW mlW.indexPath = some (Blob.text (joinNL ["A"]))
    ∧ (["A"] : List String) ≠ [] ∧ goodId envW.newId ∧ ([recW] : List MediaRecord) ≠ []
    ∧ stW (mlW.objectKey ((["A"] : List String).getLastD "") ++ ".gz")
        = some (Blob.gz 600000 600000 [recW] "")
    ∧ MAX_OBJECT_SIZE ≤ 600000
    ∧ mlW.indexLines (mlW.append envW stW [recW]).2.1 = ["A", "B"] := by
  refine ⟨by decide, by decide, by decide, by decide, by decide, by decide, ?_⟩
  have h := ((c3_eligibility_stored_size mlW envW stW ["A"] [recW] (by decide) (by decide)
    (by decide) (by decide) (by decide)).2.1) 600000 600000 [recW] "" (by decide) (by decide)
  exact h.1

theorem getLastD_mem {l : List String} (h : l ≠ []) : l.getLastD "" ∈ l := by
  rw [List.getLastD_eq_getLast?, List.getLast?_eq_getLast_of_ne_nil h]
  exact List.getLast_mem h

/-- Both C4 conclusions in the case where a non-empty index exists but its
last-listed file is not eligible, so the append rotates. -/
theorem c4_create_case (ml : MediaLog) (env : AppendEnv) (st : Store)
    (ids : List String) (updates : List MediaRecord) (hups : updates ≠ [])
    (hids : ids ≠ []) (hgood : ∀ i ∈ ids, goodId i)
    (hidx : st ml.indexPath = some (Blob.text (joinNL ids)))
    (hgnew : goodId env.newId)
    (hfl : (ml.fetchLogFile st (ml.objectKey (ids.getLastD ""))).1 = none) :
    (∀ i p b, ((ml.append env st updates).2.2).get? i = some (SOp.put p b) →
      (∃ len ulen c m, b = Blob.gz len ulen c m) →
      ∃ id, p = ml.objectKey id ++ ".gz"
        ∧ id ∈ ml.indexLines (applySOps st (((ml.append env st updates).2.2).take i)))
    ∧ (∃ g, (ml.append env st updates).2.2
          = g ++ [SOp.put ml.indexPath
                (Blob.text (joinNL ((ml.fetchIndex st).1 ++ [env.newId]))),
              SOp.put (ml.objectKey env.newId ++ ".gz")
                (Blob.gz (env.gzLen updates) (env.jsonLen updates) updates
                  (env.fmt ((updates.getLastD ⟨0, ""⟩).timestamp)))]
        ∧ ∀ op ∈ g, ∃ q, op = SOp.get q) := by
  have hgo := ml.getOrCreate_notEligible env st ids hids hgood hidx hfl
  have hap := ml.append_of_getOrCreate env st updates _ _ _ _ hups hgo
  rw [hap, ml.fetchIndex_of_text st ids hids hgood hidx]
  dsimp only
  simp only [List.cons_append, List.nil_append]
  constructor
  · intro i p b hget hgz
    rcases hgz with ⟨len, ulen, c, m, rfl⟩
    rcases i with _ | _ | _ | _ | i
    · simp [List.get?] at hget
    · simp [List.get?] at hget
    · simp [List.get?] at hget
    · simp only [List.get?, Option.some.injEq, SOp.put.injEq] at hget
      obtain ⟨hp, -⟩ := hget
      subst hp
      refine ⟨env.newId, rfl, ?_⟩
      show env.newId ∈
        ml.indexLines (st.put ml.indexPath (Blob.text (joinNL (ids ++ [env.newId]))))
      rw [ml.indexLines_of_text _ (ids ++ [env.newId]) (by simp)
        (goodId_append_one hgood hgnew) (Store.put_same _ _ _)]
      simp
    · simp [List.get?] at hget
  · refine ⟨[SOp.get ml.indexPath, SOp.get (ml.objectKey (ids.getLastD "") ++ ".gz")],
      by simp, ?_⟩
    intro op hop
    rcases List.mem_cons.1 hop with h | h
    · exact ⟨ml.indexPath, h⟩
    · rw [List.mem_singleton.1 h]
      exact ⟨ml.objectKey (ids.getLastD "") ++ ".gz", rfl⟩

/-- C4: the index write is the durability checkpoint. Every `put` of a
gzip log object in the operation trace of an `append` targets an
identifier that is already listed in the index as persisted at that point
of the trace; and whenever no eligible current file exists, the trace
ends with the index put strictly before the first (and only) content
write of the new file, the new identifier having been appended to the
index list. -/
theorem c4_index_write_checkpoint (ml : MediaLog) (env : AppendEnv) (st : Store)
    (updates : List MediaRecord) (hups : updates ≠ [])
    (hwf : st ml.indexPath = none ∨ ∃ ids, ids ≠ [] ∧ (∀ i ∈ ids, goodId i) ∧
      st ml.indexPath = some (Blob.text (joinNL ids)))
    (hgnew : goodId env.newId) :
    (∀ i p b, ((ml.append env st updates).2.2).get? i = some (SOp.put p b) →
      (∃ len ulen c m, b = Blob.gz len ulen c m) →
      ∃ id, p = ml.objectKey id ++ ".gz"
        ∧ id ∈ ml.indexLines (applySOps st (((ml.append env st updates).2.2).take i)))
    ∧ (¬ ml.hasEligible st →
      ∃ g, (ml.append env st updates).2.2
          = g ++ [SOp.put ml.indexPath
                (Blob.text (joinNL ((ml.fetchIndex st).1 ++ [env.newId]))),
              SOp.put (ml.objectKey env.newId ++ ".gz")
                (Blob.gz (env.gzLen updates) (env.jsonLen updates) updates
                  (env.fmt ((updates.getLastD ⟨0, ""⟩).timestamp)))]
        ∧ ∀ op ∈ g, ∃ q, op = SOp.get q) := by
  rcases hwf with hnone | ⟨ids, hids, hgood, hidx⟩
  · -- empty index: the append creates the first file.
    have hgo := ml.getOrCreate_emptyIndex env st hnone
    have hap := ml.append_of_getOrCreate env st updates _ _ _ _ hups hgo
    rw [hap, ml.fetchIndex_of_none st hnone]
    dsimp only
    simp only [List.cons_append, List.nil_append]
    constructor
    · intro i p b hget hgz
      rcases hgz with ⟨len, ulen, c, m, rfl⟩
      rcases i with _ | _ | _ | i
      · simp [List.get?] at hget
      · simp [List.get?] at hget
      · simp only [List.get?, Option.some.injEq, SOp.put.injEq] at hget
        obtain ⟨hp, -⟩ := hget
        subst hp
        refine ⟨env.newId, rfl, ?_⟩
        show env.newId ∈
          ml.indexLines (st.put ml.indexPath (Blob.text (joinNL [env.newId])))
        rw [ml.indexLines_of_text _ [env.newId] (by simp)
          (by
            intro x hx
            rw [List.mem_singleton.1 hx]
            exact hgnew) (Store.put_same _ _ _)]
        simp
      · simp [List.get?] at hget
    · intro _
      refine ⟨[SOp.get ml.indexPath], by simp, ?_⟩
      intro op hop
      rw [List.mem_singleton.1 hop]
      exact ⟨ml.indexPath, rfl⟩
  · rcases hblob : st (ml.objectKey (ids.getLastD "") ++ ".gz") with _ | b
    · have h := c4_create_case ml env st ids updates hups hids hgood hidx hgnew
        (by rw [List.getLastD_eq_getLast?] at hblob
            simp [MediaLog.fetchLogFile, hblob])
      exact ⟨h.1, fun _ => h.2⟩
    · rcases b with body | ⟨len, ulen, c, m⟩
      · have h := c4_create_case ml env st ids updates hups hids hgood hidx hgnew
          (by rw [List.getLastD_eq_getLast?] at hblob
              simp [MediaLog.fetchLogFile, hblob])
        exact ⟨h.1, fun _ => h.2⟩
      · by_cases hlt : len < MAX_OBJECT_SIZE
        · -- an eligible current file: the append reuses the last-listed id.
          have hgo := ml.getOrCreate_eligible env st ids len ulen c m hids hgood hidx
            hblob hlt
          have hap := ml.append_of_getOrCreate env st updates _ _ _ _ hups hgo
          rw [hap]
          dsimp only
          simp only [List.cons_append, List.nil_append]
          constructor
          · intro i p b hget hgz
            rcases hgz with ⟨len', ulen', c', m', rfl⟩
            rcases i with _ | _ | _ | i
            · simp [List.get?] at hget
            · simp [List.get?] at hget
            · simp only [List.get?, Option.some.injEq, SOp.put.injEq] at hget
              obtain ⟨hp, -⟩ := hget
              subst hp
              refine ⟨ids.getLastD "", rfl, ?_⟩
              show ids.getLastD "" ∈ ml.indexLines st
              rw [ml.indexLines_of_text st ids hids hgood hidx]
              exact getLastD_mem hids
            · simp [List.get?] at hget
          · intro hnel
            refine absurd ⟨?_, ?_⟩ hnel
            · rw [ml.fetchIndex_of_text st ids hids hgood hidx]
              simpa using hids
            · rw [ml.fetchIndex_of_text st ids hids hgood hidx]
              dsimp only
              unfold MediaLog.fetchLogFile
              rw [hblob]
              simp [hlt]
        · have h := c4_create_case ml env st ids updates hups hids hgood hidx hgnew
            (by rw [List.getLastD_eq_getLast?] at hblob
                simp [MediaLog.fetchLogFile, hblob, hlt])
          exact ⟨h.1, fun _ => h.2⟩

theorem c4_index_write_checkpoint_witness :
    ([recW] : List MediaRecord) ≠ []
    ∧ Store.empty mlW.indexPath = none
    ∧ goodId envW.newId
    ∧ ¬ mlW.hasEligible Store.empty
    ∧ (∃ g, (mlW.append envW Store.empty [recW]).2.2
        = g ++ [SOp.put mlW.indexPath
              (Blob.text (joinNL ((mlW.fetchIndex Store.empty).1 ++ [envW.newId]))),
            SOp.put (mlW.objectKey envW.newId ++ ".gz")
              (Blob.gz (envW.gzLen [recW]) (envW.jsonLen [recW]) [recW]
                (envW.fmt (([recW].getLastD ⟨0, ""⟩).timestamp)))]
        ∧ ∀ op ∈ g, ∃ q, op = SOp.get q) := by
  refine ⟨by decide, by decide, by decide, by decide, ?_⟩
  exact (c4_index_write_checkpoint mlW envW Store.empty [recW] (by decide)
    (Or.inl (by decide)) (by decide)).2 (by decide)

/-! ## The multi-append invariant (claim C1) -/

/-- The records an independent reader decodes from the log object of `id`
(empty when the object is missing). -/
def contentsAt (ml : MediaLog) (st : Store) (id : String) : List MediaRecord :=
  match st (ml.objectKey id ++ ".gz") with
  | some (Blob.gz _ _ c _) => c
  | _ => []

theorem readBack_eq (ml : MediaLog) (st : Store) :
    ml.readBack st = (ml.indexLines st).flatMap (contentsAt ml st) := rfl

theorem contentsAt_put_other (ml : MediaLog) (st : Store) (id : String)
    (p : String) (b : Blob) (h : ml.objectKey id ++ ".gz" ≠ p) :
    contentsAt ml (st.put p b) id = contentsAt ml st id := by
  unfold contentsAt
  rw [Store.put_other _ _ _ _ h]

theorem flatMap_congr_mem {α β : Type _} {l : List α} {f g : α → List β}
    (h : ∀ a ∈ l, f a = g a) : l.flatMap f = l.flatMap g := by
  induction l with
  | nil => rfl
  | cons a l ih =>
    rw [List.flatMap_cons, List.flatMap_cons, h a (List.mem_cons_self a l),
      ih (fun x hx => h x (List.mem_cons_of_mem a hx))]

/-- The invariant maintained by `append`: the stored index decodes to the
identifiers of all log files created so far, in creation order; the
listed log objects hold, concatenated in index order, exactly all records
ever appended; no other object exists under the key's namespace. -/
structure Inv (ml : MediaLog) (st : Store) (ids : List String)
    (recs : List MediaRecord) : Prop where
  hidx : (ids = [] ∧ st ml.indexPath = none) ∨
    (ids ≠ [] ∧ st ml.indexPath = some (Blob.text (joinNL ids)))
  hnodup : ids.Nodup
  hgood : ∀ id ∈ ids, goodId id
  hrecs : recs = ids.flatMap (contentsAt ml st)
  hfiles : ∀ id ∈ ids, ∃ len ulen c m,
    st (ml.objectKey id ++ ".gz") = some (Blob.gz len ulen c m)
  hdom : ∀ p b, st p = some b → p = ml.indexPath ∨ ∃ id ∈ ids, p = ml.objectKey id ++ ".gz"

theorem Inv.indexLines_eq {ml : MediaLog} {st : Store} {ids : List String}
    {recs : List MediaRecord} (hinv : Inv ml st ids recs) : ml.indexLines st = ids := by
  rcases hinv.hidx with ⟨rfl, hnone⟩ | ⟨hids, hidx⟩
  · unfold MediaLog.indexLines
    rw [ml.fetchIndex_of_none st hnone]
  · exact ml.indexLines_of_text st ids hids hinv.hgood hidx

theorem Inv.empty (ml : MediaLog) : Inv ml Store.empty [] [] where
  hidx := Or.inl ⟨rfl, rfl⟩
  hnodup := List.nodup_nil
  hgood := by intro id h; cases h
  hrecs := rfl
  hfiles := by intro id h; cases h
  hdom := by intro p b h; cases h

theorem gzPath_ne_gzPath {ml : MediaLog} {a b : String} (h : a ≠ b) :
    ml.objectKey a ++ ".gz" ≠ ml.objectKey b ++ ".gz" := fun hc =>
  h (objectKey_inj ml (append_gz_inj hc))

/-- `Inv` is preserved when an `append` creates a new log file: the new
identifier is pushed onto the index and the new file holds the updates. -/
theorem inv_after_create (ml : MediaLog) (env : AppendEnv) (st : Store)
    (ids : List String) (recs updates : List MediaRecord)
    (hinv : Inv ml st ids recs) (hgnew : goodId env.newId) (hfresh : env.newId ∉ ids)
    (st' : Store)
    (hst' : st' = (st.put ml.indexPath (Blob.text (joinNL (ids ++ [env.newId])))).put
        (ml.objectKey env.newId ++ ".gz")
        (Blob.gz (env.gzLen ([] ++ updates)) (env.jsonLen ([] ++ updates)) ([] ++ updates)
          (env.fmt ((updates.getLastD ⟨0, ""⟩).timestamp)))) :
    Inv ml st' (ids ++ [env.newId]) (recs ++ updates) where
  hidx := Or.inr ⟨by simp, by
    rw [hst', Store.put_other _ _ _ _ (indexPath_ne_gz ml _)]
    exact Store.put_same _ _ _⟩
  hnodup := by simp [List.nodup_append, hinv.hnodup, hfresh]
  hgood := goodId_append_one hinv.hgood hgnew
  hrecs := by
    have hdl : ∀ id ∈ ids, contentsAt ml st' id = contentsAt ml st id := by
      intro id hid
      rw [hst', contentsAt_put_other _ _ _ _ _
        (gzPath_ne_gzPath (by intro he; exact hfresh (he ▸ hid))),
        contentsAt_put_other _ _ _ _ _ (indexPath_ne_gz ml (ml.objectKey id)).symm]
    have hnew : contentsAt ml st' env.newId = [] ++ updates := by
      rw [hst']
      unfold contentsAt
      rw [Store.put_same]
    rw [List.flatMap_append, flatMap_congr_mem hdl, ← hinv.hrecs]
    simp [hnew]
  hfiles := by
    intro id hid
    rcases List.mem_append.1 hid with h | h
    · obtain ⟨len, ulen, c, m, hf⟩ := hinv.hfiles id h
      refine ⟨len, ulen, c, m, ?_⟩
      rw [hst', Store.put_other _ _ _ _
        (gzPath_ne_gzPath (by intro he; exact hfresh (he ▸ h))),
        Store.put_other _ _ _ _ (indexPath_ne_gz ml (ml.objectKey id)).symm]
      exact hf
    · rw [List.mem_singleton.1 h, hst']
      exact ⟨_, _, _, _, Store.put_same _ _ _⟩
  hdom := by
    intro p b hpb
    rw [hst'] at hpb
    by_cases h1 : p = ml.objectKey env.newId ++ ".gz"
    · exact Or.inr ⟨env.newId, by simp, h1⟩
    · rw [Store.put_other _ _ _ _ h1] at hpb
      by_cases h2 : p = ml.indexPath
      · exact Or.inl h2
      · rw [Store.put_other _ _ _ _ h2] at hpb
        rcases hinv.hdom p b hpb with h | ⟨id, hid, hp⟩
        · exact Or.inl h
        · exact Or.inr ⟨id, List.mem_append_left _ hid, hp⟩

/-- `Inv` is preserved when an `append` reuses the eligible current file:
the index is untouched and the updates are appended to the last file. -/
theorem inv_after_reuse (ml : MediaLog) (env : AppendEnv) (st : Store)
    (ids : List String) (recs updates : List MediaRecord)
    (hinv : Inv ml st ids recs) (hids : ids ≠ [])
    (len ulen : Nat) (c : List MediaRecord) (m : String)
    (hobj : st (ml.objectKey (ids.getLastD "") ++ ".gz") = some (Blob.gz len ulen c m))
    (st' : Store)
    (hst' : st' = st.put (ml.objectKey (ids.getLastD "") ++ ".gz")
        (Blob.gz (env.gzLen (c ++ updates)) (env.jsonLen (c ++ updates)) (c ++ updates)
          (env.fmt ((updates.getLastD ⟨0, ""⟩).timestamp)))) :
    Inv ml st' ids (recs ++ updates) := by
  have hmem : ids.getLastD "" ∈ ids := getLastD_mem hids
  have hsome : ids.getLast? = some (ids.getLastD "") := by
    rw [List.getLastD_eq_getLast?, List.getLast?_eq_getLast_of_ne_nil hids]
    rfl
  have hsplit : ids.dropLast ++ [ids.getLastD ""] = ids :=
    List.dropLast_append_getLast? _ (Option.mem_def.2 hsome)
  have hnotmem : ids.getLastD "" ∉ ids.dropLast := by
    have hnd := hinv.hnodup
    rw [← hsplit] at hnd
    rcases List.nodup_append.1 hnd with ⟨-, -, hdisj⟩
    intro hmem'
    exact hdisj hmem' (List.mem_singleton_self _)
  refine ⟨?_, hinv.hnodup, hinv.hgood, ?_, ?_, ?_⟩
  · refine Or.inr ⟨hids, ?_⟩
    rcases hinv.hidx with ⟨h, -⟩ | ⟨-, hidx⟩
    · exact absurd h hids
    · rw [hst', Store.put_other _ _ _ _ (indexPath_ne_gz ml _)]
      exact hidx
  · have hdl : ∀ id ∈ ids.dropLast, contentsAt ml st' id = contentsAt ml st id := by
      intro id hid
      rw [hst']
      exact contentsAt_put_other _ _ _ _ _
        (gzPath_ne_gzPath (by intro he; exact hnotmem (he ▸ hid)))
    have hold : contentsAt ml st (ids.getLastD "") = c := by
      unfold contentsAt
      rw [hobj]
    have hnewc : contentsAt ml st' (ids.getLastD "") = c ++ updates := by
      rw [hst']
      unfold contentsAt
      rw [Store.put_same]
    conv_rhs => rw [← hsplit]
    rw [List.flatMap_append, flatMap_congr_mem hdl]
    simp only [List.flatMap_cons, List.flatMap_nil, List.append_nil]
    rw [hnewc]
    conv_lhs => rw [hinv.hrecs, ← hsplit]
    rw [List.flatMap_append]
    simp only [List.flatMap_cons, List.flatMap_nil, List.append_nil]
    rw [hold, List.append_assoc]
  · intro id hid
    by_cases heq : id = ids.getLastD ""
    · subst heq
      rw [hst']
      exact ⟨_, _, _, _, Store.put_same _ _ _⟩
    · obtain ⟨len', ulen', c', m', hf⟩ := hinv.hfiles id hid
      refine ⟨len', ulen', c', m', ?_⟩
      rw [hst', Store.put_other _ _ _ _ (gzPath_ne_gzPath heq)]
      exact hf
  · intro p b hpb
    rw [hst'] at hpb
    by_cases h1 : p = ml.objectKey (ids.getLastD "") ++ ".gz"
    · exact Or.inr ⟨ids.getLastD "", hmem, h1⟩
    · rw [Store.put_other _ _ _ _ h1] at hpb
      exact hinv.hdom p b hpb

/-- One `append` preserves the invariant; the index grows by at most the
fresh identifier, appended at the end. -/
theorem append_inv_step (ml : MediaLog) (env : AppendEnv) (st : Store)
    (ids : List String) (recs updates : List MediaRecord)
    (hinv : Inv ml st ids recs) (hgnew : goodId env.newId) (hfresh : env.newId ∉ ids) :
    ∃ ids2, Inv ml (ml.append env st updates).2.1 ids2 (recs ++ updates)
      ∧ List.IsPrefix ids ids2
      ∧ ids2.length ≤ ids.length + 1
      ∧ (∀ i ∈ ids2, i ∈ ids ∨ i = env.newId)
      ∧ (ids2 = [] ↔ ids = [] ∧ updates = []) := by
  by_cases hups : updates = []
  · subst hups
    refine ⟨ids, ?_, List.prefix_refl _, Nat.le_succ _, fun i hi => Or.inl hi, by simp⟩
    rw [show (ml.append env st []).2.1 = st from rfl, List.append_nil]
    exact hinv
  · rcases hdec : hinv.hidx with ⟨hidnil, hnone⟩ | ⟨hids, hidx⟩
    · -- empty index: the append creates the first file.
      subst hidnil
      have hgo := ml.getOrCreate_emptyIndex env st hnone
      have hap := ml.append_of_getOrCreate env st updates _ _ _ _ hups hgo
      refine ⟨[env.newId], ?_, List.nil_prefix, by simp,
        fun i hi => Or.inr (List.mem_singleton.1 hi), by simp [hups]⟩
      have := inv_after_create ml env st [] recs updates hinv hgnew (by simp)
        (ml.append env st updates).2.1 (by rw [hap]; rfl)
      simpa using this
    · have hmem : ids.getLastD "" ∈ ids := getLastD_mem hids
      obtain ⟨len, ulen, c, m, hobj⟩ := hinv.hfiles _ hmem
      by_cases hlt : len < MAX_OBJECT_SIZE
      · -- the current file is eligible: reuse it.
        have hgo := ml.getOrCreate_eligible env st ids len ulen c m hids hinv.hgood
          hidx hobj hlt
        have hap := ml.append_of_getOrCreate env st updates _ _ _ _ hups hgo
        refine ⟨ids, ?_, List.prefix_refl _, Nat.le_succ _, fun i hi => Or.inl hi,
          by simp [hids]⟩
        exact inv_after_reuse ml env st ids recs updates hinv hids len ulen c m hobj
          (ml.append env st updates).2.1 (by rw [hap])
      · -- the current file is over the threshold: rotate.
        have hgo := ml.getOrCreate_rotate env st ids len ulen c m hids hinv.hgood
          hidx hobj hlt
        have hap := ml.append_of_getOrCreate env st updates _ _ _ _ hups hgo
        refine ⟨ids ++ [env.newId], ?_, List.prefix_append _ _, by simp, ?_,
          by simp [hups]⟩
        · exact inv_after_create ml env st ids recs updates hinv hgnew hfresh
            (ml.append env st updates).2.1 (by rw [hap])
        · intro i hi
          rcases List.mem_append.1 hi with h | h
          · exact Or.inl h
          · exact Or.inr (List.mem_singleton.1 h)

theorem runAppends_append (ml : MediaLog) (gzL jsonL : List MediaRecord → Nat)
    (fm : Nat → String) :
    ∀ (l1 l2 : List (List MediaRecord × String)) (st : Store),
      ml.runAppends gzL jsonL fm st (l1 ++ l2)
        = ml.runAppends gzL jsonL fm (ml.runAppends gzL jsonL fm st l1) l2
  | [], l2, st => rfl
  | (u, id) :: l1, l2, st => by
    rw [List.cons_append]
    show ml.runAppends gzL jsonL fm _ (l1 ++ l2) = _
    rw [runAppends_append ml gzL jsonL fm l1 l2]
    rfl

/-- Running a list of appends from an invariant state preserves the
invariant, extends the index by a prefix relation, uses only the supplied
fresh identifiers, and accumulates exactly the appended records. -/
theorem runAppends_inv (ml : MediaLog) (gzL jsonL : List MediaRecord → Nat)
    (fm : Nat → String) :
    ∀ (calls : List (List MediaRecord × String)) (st : Store) (ids : List String)
      (recs : List MediaRecord),
      Inv ml st ids recs →
      (∀ cl ∈ calls, goodId cl.2) →
      (calls.map Prod.snd).Nodup →
      (∀ cl ∈ calls, cl.2 ∉ ids) →
      ∃ ids2, Inv ml (ml.runAppends gzL jsonL fm st calls) ids2
          (recs ++ calls.flatMap Prod.fst)
        ∧ List.IsPrefix ids ids2
        ∧ (∀ i ∈ ids2, i ∈ ids ∨ i ∈ calls.map Prod.snd)
        ∧ (ids2 = [] ↔ ids = [] ∧ ∀ cl ∈ calls, cl.1 = [])
  | [], st, ids, recs, hinv, _, _, _ =>
    ⟨ids, by simpa using hinv, List.prefix_refl _, fun i hi => Or.inl hi, by simp⟩
  | (u, id) :: rest, st, ids, recs, hinv, hgood, hnodup, hfresh => by
    have hstep := append_inv_step ml ⟨gzL, jsonL, fm, id⟩ st ids recs u hinv
      (hgood _ (List.mem_cons_self _ _)) (hfresh _ (List.mem_cons_self _ _))
    obtain ⟨ids1, hinv1, hpre1, -, hmem1, hiff1⟩ := hstep
    have hidnotin : id ∉ List.map Prod.snd rest := by
      have := hnodup
      rw [List.map_cons] at this
      exact (List.nodup_cons.1 this).1
    have hrest := runAppends_inv ml gzL jsonL fm rest _ ids1 (recs ++ u) hinv1
      (fun cl hcl => hgood cl (List.mem_cons_of_mem _ hcl))
      (by
        rw [List.map_cons] at hnodup
        exact (List.nodup_cons.1 hnodup).2)
      (by
        intro cl hcl hin
        rcases hmem1 cl.2 hin with h | h
        · exact hfresh cl (List.mem_cons_of_mem _ hcl) h
        · refine hidnotin ?_
          have h' : cl.2 = id := h
          rw [← h']
          exact List.mem_map_of_mem Prod.snd hcl)
    obtain ⟨ids2, hinv2, hpre2, hmem2, hiff2⟩ := hrest
    refine ⟨ids2, ?_, hpre1.trans hpre2, ?_, ?_⟩
    · show Inv ml (ml.runAppends gzL jsonL fm st ((u, id) :: rest)) ids2 _
      have hrw : recs ++ ((u, id) :: rest).flatMap Prod.fst
          = (recs ++ u) ++ rest.flatMap Prod.fst := by
        rw [List.flatMap_cons, List.append_assoc]
      rw [hrw]
      exact hinv2
    · intro i hi
      rcases hmem2 i hi with h | h
      · rcases hmem1 i h with h' | h'
        · exact Or.inl h'
        · exact Or.inr (by rw [List.map_cons, h']; exact List.mem_cons_self _ _)
      · exact Or.inr (by rw [List.map_cons]; exact List.mem_cons_of_mem _ h)
    · rw [hiff2, hiff1]
      simp only [List.forall_mem_cons]
      constructor
      · rintro ⟨⟨h1, h2⟩, h3⟩
        exact ⟨h1, h2, h3⟩
      · rintro ⟨h1, h2, h3⟩
        exact ⟨⟨h1, h2⟩, h3⟩

/-- C1: durability and order of the append log. Starting from an empty
store, for any sequence of `append` calls (with well-formed, pairwise
distinct fresh identifiers), an independent read of the index plus the
listed log files yields exactly all appended records in append order;
the index of any run prefix is a list prefix of the final index (entries
are never removed or reordered); each single append grows the index by at
most one entry; and the index is empty iff every call appended nothing,
equivalently iff no log file was ever created. -/
theorem c1_durable_append_log (ml : MediaLog) (gzL jsonL : List MediaRecord → Nat)
    (fm : Nat → String) (calls : List (List MediaRecord × String))
    (hgood : ∀ cl ∈ calls, goodId cl.2) (hnodup : (calls.map Prod.snd).Nodup) :
    ml.readBack (ml.runAppends gzL jsonL fm Store.empty calls) = calls.flatMap Prod.fst
    ∧ (∀ l1 l2, calls = l1 ++ l2 →
        List.IsPrefix (ml.indexLines (ml.runAppends gzL jsonL fm Store.empty l1))
          (ml.indexLines (ml.runAppends gzL jsonL fm Store.empty calls)))
    ∧ (∀ l1 cl l2, calls = l1 ++ cl :: l2 →
        (ml.indexLines (ml.runAppends gzL jsonL fm Store.empty (l1 ++ [cl]))).length
          ≤ (ml.indexLines (ml.runAppends gzL jsonL fm Store.empty l1)).length + 1)
    ∧ (ml.indexLines (ml.runAppends gzL jsonL fm Store.empty calls) = []
        ↔ ∀ cl ∈ calls, cl.1 = [])
    ∧ (ml.indexLines (ml.runAppends gzL jsonL fm Store.empty calls) = []
        ↔ ∀ p len ulen c m,
            (ml.runAppends gzL jsonL fm Store.empty calls) p ≠ some (Blob.gz len ulen c m)) := by
  obtain ⟨idsF, hinvF, -, -, hiffF⟩ := runAppends_inv ml gzL jsonL fm calls Store.empty
    [] [] (Inv.empty ml) hgood hnodup (by simp)
  refine ⟨?_, ?_, ?_, ?_, ?_⟩
  · rw [readBack_eq, hinvF.indexLines_eq, ← hinvF.hrecs]
    simp
  · intro l1 l2 heq
    subst heq
    have hmap := hnodup
    rw [List.map_append] at hmap
    obtain ⟨hnd1, hnd2, hdisj⟩ := List.nodup_append.1 hmap
    obtain ⟨ids1, hinv1, -, hmem1, -⟩ := runAppends_inv ml gzL jsonL fm l1 Store.empty
      [] [] (Inv.empty ml) (fun cl hc => hgood cl (List.mem_append_left _ hc)) hnd1 (by simp)
    obtain ⟨ids2, hinv2, hpre2, -, -⟩ := runAppends_inv ml gzL jsonL fm l2 _ ids1
      ([] ++ l1.flatMap Prod.fst) hinv1
      (fun cl hc => hgood cl (List.mem_append_right _ hc)) hnd2
      (by
        intro cl hcl hin
        rcases hmem1 cl.2 hin with h | h
        · cases h
        · exact hdisj h (List.mem_map_of_mem Prod.snd hcl))
    rw [runAppends_append ml gzL jsonL fm l1 l2, hinv1.indexLines_eq]
    have hidsF : ml.indexLines
        (ml.runAppends gzL jsonL fm (ml.runAppends gzL jsonL fm Store.empty l1) l2)
        = ids2 := hinv2.indexLines_eq
    rw [hidsF]
    exact hpre2
  · intro l1 cl l2 heq
    subst heq
    obtain ⟨u, id⟩ := cl
    have hmap := hnodup
    rw [List.map_append, List.map_cons] at hmap
    obtain ⟨hnd1, hnd2, hdisj⟩ := List.nodup_append.1 hmap
    have hnotin1 : id ∉ l1.map Prod.snd := by
      intro hin
      exact hdisj hin (List.mem_cons_self _ _)
    obtain ⟨ids1, hinv1, -, hmem1, -⟩ := runAppends_inv ml gzL jsonL fm l1 Store.empty
      [] [] (Inv.empty ml) (fun c hc => hgood c (List.mem_append_left _ hc)) hnd1 (by simp)
    obtain ⟨ids', hinv', -, hlen', -, -⟩ := append_inv_step ml ⟨gzL, jsonL, fm, id⟩
      (ml.runAppends gzL jsonL fm Store.empty l1) ids1 ([] ++ l1.flatMap Prod.fst) u hinv1
      (hgood (u, id) (List.mem_append_right _ (List.mem_cons_self _ _)))
      (by
        intro hin
        rcases hmem1 id hin with h | h
        · cases h
        · exact hnotin1 h)
    rw [runAppends_append ml gzL jsonL fm l1 [(u, id)], hinv1.indexLines_eq]
    have : ml.indexLines
        (ml.runAppends gzL jsonL fm (ml.runAppends gzL jsonL fm Store.empty l1) [(u, id)])
        = ids' := hinv'.indexLines_eq
    rw [this]
    exact hlen'
  · rw [hinvF.indexLines_eq, hiffF]
    simp
  · rw [hinvF.indexLines_eq]
    constructor
    · intro hnil p len ulen c m hsome
      rcases hinvF.hdom p _ hsome with hp | ⟨id, hid, -⟩
      · rcases hinvF.hidx with ⟨-, hnone⟩ | ⟨hne, -⟩
        · rw [hp, hnone] at hsome
          cases hsome
        · exact hne hnil
      · rw [hnil] at hid
        cases hid
    · intro hno
      by_contra hne
      obtain ⟨len, ulen, c, m, hf⟩ := hinvF.hfiles _ (getLastD_mem hne)
      exact hno _ len ulen c m hf

def recW2 : MediaRecord := ⟨7, "y"⟩

theorem c1_durable_append_log_witness :
    (∀ cl ∈ [([recW], "A"), ([recW2], "B")], goodId cl.2)
    ∧ ((([([recW], "A"), ([recW2], "B")]).map Prod.snd).Nodup)
    ∧ mlW.readBack (mlW.runAppends (fun l => 100 * l.length) (fun l => 200 * l.length)
        (fun _ => "") Store.empty [([recW], "A"), ([recW2], "B")]) = [recW, recW2] := by
  refine ⟨by decide, by decide, ?_⟩
  have h := (c1_durable_append_log mlW (fun l => 100 * l.length) (fun l => 200 * l.length)
    (fun _ => "") [([recW], "A"), ([recW2], "B")] (by decide) (by decide)).1
  rw [h]
  rfl

/-! ## The grouping pipeline (src/events.js)

`doRun` receives up to 50 messages, parses each body as JSON (unwrapping
an SNS notification envelope when `TopicArn && Message` are present),
groups the payloads by `contentBusId` via `addMessage`, builds one FIFO
message per project with `MessageGroupId = contentBusId`, sends them in a
single `client.send(payloads)` call, deletes all received messages, and
responds with the received count. JSON parsing and key presence are
modelled by the shape of the received body. -/

/-- The normalized message payload: its `contentBusId` (`none` for a
missing/falsy one) and, opaquely, everything else (`rest` stands for the
object with `contentBusId` removed, as destructured in `addMessage`). -/
structure Payload where
  contentBusId : Option String
  rest : String
deriving DecidableEq, Repr

/-- The parse shape of a received message body:
  * `malformed` — `JSON.parse(msg.Body)` throws;
  * `sns inner` — the body has `TopicArn && Message` (an SNS wrapper);
    `inner = none` when the inner `JSON.parse(body.Message)` throws;
  * `plain p` — a plain SQS body. -/
inductive BodyKind where
  | malformed : BodyKind
  | sns (inner : Option Payload) : BodyKind
  | plain (payload : Payload) : BodyKind
deriving DecidableEq, Repr

structure InMsg where
  messageId : String
  body : BodyKind
deriving DecidableEq, Repr

/-- The payload the per-message try-block of `doRun` derives, `none` when
a `JSON.parse` throws (the exception is caught and logged). -/
def deriveMessage (m : InMsg) : Option Payload :=
  match m.body with
  | BodyKind.malformed => none
  | BodyKind.sns none => none
  | BodyKind.sns (some p) => some p
  | BodyKind.plain p => some p

/-- A per-project accumulator entry: `{ contentBusId, updates }`. -/
structure Project where
  contentBusId : String
  updates : List String
deriving DecidableEq, Repr

/-- `addMessage(message, key, projects)`: push the update (the message
minus `contentBusId`) onto the project for `key`, creating the project
if absent. The JS `projects` object is an insertion-ordered map. -/
def addMessage (message : Payload) (key : String) :
    List (String × Project) → List (String × Project)
  | [] => [(key, ⟨key, [message.rest]⟩)]
  | (k, pr) :: rest =>
    if k = key then (k, ⟨pr.contentBusId, pr.updates ++ [message.rest]⟩) :: rest
    else (k, pr) :: addMessage message key rest

/-- One iteration of the `for (const msg of msgs)` loop. -/
def groupStep (projects : List (String × Project)) (m : InMsg) :
    List (String × Project) :=
  match deriveMessage m with
  | none => projects
  | some message =>
    match message.contentBusId with
    | some key => addMessage message key projects
    | none => projects

def groupMessages (msgs : List InMsg) : List (String × Project) :=
  msgs.foldl groupStep []

/-- One outbound FIFO message: `MessageGroupId = contentBusId` and the
body `JSON.stringify(project)` (kept in decoded form). The random
`MessageDeduplicationId` is environment-supplied and not modelled. -/
structure OutboundMessage where
  MessageGroupId : String
  body : Project
deriving DecidableEq, Repr

def eventsPayloads (projects : List (String × Project)) : List OutboundMessage :=
  projects.map (fun kp => ⟨kp.2.contentBusId, kp.2⟩)

/-- The observable outcome of one pipeline invocation: the list of `send`
calls made (each with its message batch), the messages deleted, and the
received count reported in the response body. -/
structure EventsRun where
  sendCalls : List (List OutboundMessage)
  deleted : List InMsg
  received : Nat
deriving DecidableEq, Repr

/-- `doRun(context)` after the `receive` returned `msgs`. -/
def doRunEvents (msgs : List InMsg) : EventsRun :=
  ⟨[eventsPayloads (groupMessages msgs)], msgs, msgs.length⟩

def EventsRun.sent (r : EventsRun) : List OutboundMessage := r.sendCalls.flatten

/-- The logical key an input message yields, if any. -/
def msgKey (m : InMsg) : Option String :=
  (deriveMessage m).bind (fun p => p.contentBusId)

/-- The updates carried by the messages of key `k`, in receive order. -/
def keyedUpdates (k : String) (msgs : List InMsg) : List String :=
  msgs.flatMap (fun m =>
    match deriveMessage m with
    | some p => if p.contentBusId = some k then [p.rest] else []
    | none => [])

def assocFind (k : String) : List (String × Project) → Option Project
  | [] => none
  | (k', pr) :: rest => if k' = k then some pr else assocFind k rest

theorem assocFind_addMessage (message : Payload) (key : String)
    (l : List (String × Project)) (k : String) :
    assocFind k (addMessage message key l) =
      if k = key then
        match assocFind key l with
        | some pr => some ⟨pr.contentBusId, pr.updates ++ [message.rest]⟩
        | none => some ⟨key, [message.rest]⟩
      else assocFind k l := by
  induction l with
  | nil =>
    by_cases hk : k = key
    · subst hk
      simp [addMessage, assocFind]
    · simp [addMessage, assocFind, hk, Ne.symm hk]
  | cons kp rest ih =>
    obtain ⟨k', pr⟩ := kp
    by_cases h1 : k' = key
    · subst h1
      by_cases h2 : k = k'
      · subst h2
        simp [addMessage, assocFind]
      · simp [addMessage, assocFind, h2, Ne.symm h2]
    · by_cases h2 : k' = k
      · subst h2
        simp [addMessage, assocFind, h1, Ne.symm h1]
      · simp [addMessage, assocFind, h1, h2, ih]

theorem assocFind_isSome_iff (k : String) (l : List (String × Project)) :
    (assocFind k l).isSome ↔ k ∈ l.map Prod.fst := by
  induction l with
  | nil => simp [assocFind]
  | cons kp rest ih =>
    obtain ⟨k', pr⟩ := kp
    by_cases h : k' = k
    · subst h
      simp [assocFind]
    · simp [assocFind, h, ih, Ne.symm h]

theorem addMessage_keys (message : Payload) (key : String)
    (l : List (String × Project)) :
    (addMessage message key l).map Prod.fst =
      if (assocFind key l).isSome then l.map Prod.fst
      else l.map Prod.fst ++ [key] := by
  induction l with
  | nil => simp [addMessage, assocFind]
  | cons kp rest ih =>
    obtain ⟨k', pr⟩ := kp
    by_cases h1 : k' = key
    · subst h1
      simp [addMessage, assocFind]
    · simp [addMessage, assocFind, h1, ih]
      by_cases h2 : (assocFind key rest).isSome <;> simp [h2]

/-- The accumulator invariant: keys are distinct and each project's
`contentBusId` equals its key. -/
def WfAcc (l : List (String × Project)) : Prop :=
  (l.map Prod.fst).Nodup ∧ ∀ kp ∈ l, (kp.2).contentBusId = kp.1

theorem addMessage_wf (message : Payload) (key : String)
    (l : List (String × Project)) (h : WfAcc l) : WfAcc (addMessage message key l) := by
  obtain ⟨hnd, hcb⟩ := h
  constructor
  · rw [addMessage_keys]
    cases hsome : (assocFind key l).isSome
    · have h2 : ¬ ((assocFind key l).isSome = true) := by simp [hsome]
      rw [if_neg (by simp)]
      rw [List.nodup_append]
      refine ⟨hnd, List.nodup_singleton _, ?_⟩
      intro a ha hb
      rw [List.mem_singleton.1 hb] at ha
      exact h2 ((assocFind_isSome_iff key l).2 ha)
    · simpa using hnd
  · clear hnd
    induction l with
    | nil =>
      intro kp hkp
      rw [List.mem_singleton.1 hkp]
    | cons kp0 rest ih =>
      obtain ⟨k', pr⟩ := kp0
      by_cases h1 : k' = key
      · subst h1
        intro kp hkp
        simp only [addMessage, if_pos rfl] at hkp
        rcases List.mem_cons.1 hkp with h | h
        · subst h
          exact hcb (k', pr) (List.mem_cons_self _ _)
        · exact hcb kp (List.mem_cons_of_mem _ h)
      · intro kp hkp
        simp only [addMessage, h1, if_false, ite_false] at hkp
        rcases List.mem_cons.1 hkp with h | h
        · subst h
          exact hcb (k', pr) (List.mem_cons_self _ _)
        · exact ih (fun kp' hkp' => hcb kp' (List.mem_cons_of_mem _ hkp')) kp h

theorem groupStep_wf (acc : List (String × Project)) (m : InMsg) (h : WfAcc acc) :
    WfAcc (groupStep acc m) := by
  unfold groupStep
  rcases hd : deriveMessage m with _ | p
  · simp only [hd]
    exact h
  · simp only [hd]
    rcases hp : p.contentBusId with _ | key
    · simp only [hp]
      exact h
    · simp only [hp]
      exact addMessage_wf p key acc h

theorem groupMessages_wf (msgs : List InMsg) : WfAcc (groupMessages msgs) := by
  suffices h : ∀ acc, WfAcc acc → WfAcc (List.foldl groupStep acc msgs) from
    h [] ⟨List.nodup_nil, by intro kp hkp; cases hkp⟩
  induction msgs with
  | nil => intro acc h; exact h
  | cons m msgs ih => intro acc h; exact ih _ (groupStep_wf acc m h)

theorem groupMessages_assocFind (msgs : List InMsg) :
    ∀ (acc : List (String × Project)) (k : String),
    assocFind k (List.foldl groupStep acc msgs) =
      match assocFind k acc with
      | some pr => some ⟨pr.contentBusId, pr.updates ++ keyedUpdates k msgs⟩
      | none => if keyedUpdates k msgs = [] then none
                else some ⟨k, keyedUpdates k msgs⟩ := by
  induction msgs with
  | nil =>
    intro acc k
    rcases h : assocFind k acc with _ | pr <;> simp [keyedUpdates, h]
  | cons m msgs ih =>
    intro acc k
    rw [List.foldl_cons]
    have hku : keyedUpdates k (m :: msgs) =
        (match deriveMessage m with
          | some p => if p.contentBusId = some k then [p.rest] else []
          | none => []) ++ keyedUpdates k msgs := by
      simp [keyedUpdates]
    rw [ih (groupStep acc m) k, hku]
    unfold groupStep
    rcases hd : deriveMessage m with _ | p
    · simp [hd]
    · simp only [hd]
      rcases hp : p.contentBusId with _ | key
      · simp [hp]
      · simp only [hp]
        rw [assocFind_addMessage]
        by_cases hk : k = key
        · subst hk
          simp only [if_pos rfl, Option.some.injEq, if_true, ite_true]
          rcases h2 : assocFind k acc with _ | pr
          · simp
          · simp [List.append_assoc]
        · have hne : ¬ (some key = some k) := fun hc => hk (Option.some.inj hc).symm
          simp [hk, hne]

theorem assocFind_of_mem_nodup (l : List (String × Project))
    (hnd : (l.map Prod.fst).Nodup) :
    ∀ kp ∈ l, assocFind kp.1 l = some kp.2 := by
  induction l with
  | nil => intro kp hkp; cases hkp
  | cons kp0 rest ih =>
    obtain ⟨k', pr⟩ := kp0
    intro kp hkp
    rcases List.mem_cons.1 hkp with h | h
    · subst h
      simp [assocFind]
    · have hk : k' ≠ kp.1 := by
        intro hc
        rw [List.map_cons] at hnd
        have hmem : kp.1 ∈ List.map Prod.fst rest := List.mem_map_of_mem Prod.fst h
        rw [← hc] at hmem
        exact (List.nodup_cons.1 hnd).1 hmem
      simp only [assocFind, hk, if_false, ite_false]
      exact ih (by rw [List.map_cons] at hnd; exact (List.nodup_cons.1 hnd).2) kp h

theorem keyedUpdates_ne_nil_iff (k : String) (msgs : List InMsg) :
    keyedUpdates k msgs ≠ [] ↔ k ∈ msgs.filterMap msgKey := by
  induction msgs with
  | nil => simp [keyedUpdates]
  | cons m msgs ih =>
    rw [show keyedUpdates k (m :: msgs) =
        (match deriveMessage m with
          | some p => if p.contentBusId = some k then [p.rest] else []
          | none => []) ++ keyedUpdates k msgs from by simp [keyedUpdates]]
    rcases hd : deriveMessage m with _ | p
    · simpa [List.filterMap_cons, msgKey, hd] using ih
    · rcases hp : p.contentBusId with _ | key
      · simpa [List.filterMap_cons, msgKey, hd, hp] using ih
      · by_cases hk : key = k
        · subst hk
          simp [List.filterMap_cons, msgKey, hd, hp]
        · have hne : ¬ (some key = some k) := fun hc => hk (Option.some.inj hc)
          simpa [List.filterMap_cons, msgKey, hd, hp, hne, Ne.symm hk] using ih

theorem groupMessages_eq (msgs : List InMsg) (k : String) :
    assocFind k (groupMessages msgs) =
      if keyedUpdates k msgs = [] then none
      else some ⟨k, keyedUpdates k msgs⟩ := by
  unfold groupMessages
  rw [groupMessages_assocFind msgs [] k]
  rfl

theorem doRunEvents_sent (msgs : List InMsg) :
    (doRunEvents msgs).sent = eventsPayloads (groupMessages msgs) := by
  simp [doRunEvents, EventsRun.sent]

/-- C6: grouping pipeline fan-out. In every poll cycle, exactly one
outbound message is produced per distinct derivable logical key — the
outbound group keys are distinct and are exactly the keys derivable from
the received envelopes — each outbound message carries its key's records
in receive order with `MessageGroupId` equal to the logical key, all
outbound messages are submitted in one single send call, and every
received input message is deleted regardless of whether it contributed a
forwarded batch. -/
theorem c6_grouping_fanout (msgs : List InMsg) :
    (doRunEvents msgs).sendCalls.length = 1
    ∧ ((doRunEvents msgs).sent.map OutboundMessage.MessageGroupId).Nodup
    ∧ (∀ k, k ∈ (doRunEvents msgs).sent.map OutboundMessage.MessageGroupId
        ↔ k ∈ msgs.filterMap msgKey)
    ∧ (∀ om ∈ (doRunEvents msgs).sent,
        om.body.contentBusId = om.MessageGroupId
        ∧ om.body.updates = keyedUpdates om.MessageGroupId msgs)
    ∧ (doRunEvents msgs).deleted = msgs
    ∧ (doRunEvents msgs).received = msgs.length := by
  obtain ⟨hnd, hcb⟩ := groupMessages_wf msgs
  have hmapkeys : (doRunEvents msgs).sent.map OutboundMessage.MessageGroupId
      = (groupMessages msgs).map Prod.fst := by
    rw [doRunEvents_sent]
    unfold eventsPayloads
    rw [List.map_map]
    exact List.map_congr_left (fun kp hkp => hcb kp hkp)
  refine ⟨rfl, ?_, ?_, ?_, rfl, rfl⟩
  · rw [hmapkeys]
    exact hnd
  · intro k
    rw [hmapkeys, ← assocFind_isSome_iff, groupMessages_eq, ← keyedUpdates_ne_nil_iff]
    by_cases h : keyedUpdates k msgs = [] <;> simp [h]
  · intro om hom
    rw [doRunEvents_sent] at hom
    unfold eventsPayloads at hom
    rcases List.mem_map.1 hom with ⟨kp, hkp, rfl⟩
    have hk := hcb kp hkp
    have hfind := assocFind_of_mem_nodup _ hnd kp hkp
    rw [groupMessages_eq] at hfind
    by_cases h : keyedUpdates kp.1 msgs = []
    · rw [if_pos h] at hfind
      cases hfind
    · rw [if_neg h] at hfind
      have heq := Option.some.inj hfind
      refine ⟨rfl, ?_⟩
      show kp.2.updates = keyedUpdates kp.2.contentBusId msgs
      rw [hk, ← heq]

/-- C7: malformed envelope handling. A received message whose body is not
valid JSON contributes no outbound message — the grouping and the sent
batch are the same as if it had not been received — yet it still counts
toward the received total and is still deleted, and the other messages of
the same invocation are processed unaffected. -/
theorem c7_malformed_envelope (l1 l2 : List InMsg) (m : InMsg)
    (hm : m.body = BodyKind.malformed) :
    groupMessages (l1 ++ m :: l2) = groupMessages (l1 ++ l2)
    ∧ (doRunEvents (l1 ++ m :: l2)).sent = (doRunEvents (l1 ++ l2)).sent
    ∧ (doRunEvents (l1 ++ m :: l2)).received = (l1 ++ l2).length + 1
    ∧ m ∈ (doRunEvents (l1 ++ m :: l2)).deleted
    ∧ (doRunEvents (l1 ++ m :: l2)).deleted = l1 ++ m :: l2 := by
  have hgm : groupMessages (l1 ++ m :: l2) = groupMessages (l1 ++ l2) := by
    unfold groupMessages
    rw [List.foldl_append, List.foldl_append, List.foldl_cons]
    congr 1
    show groupStep (List.foldl groupStep [] l1) m = _
    unfold groupStep deriveMessage
    rw [hm]
  refine ⟨hgm, ?_, ?_, ?_, rfl⟩
  · rw [doRunEvents_sent, doRunEvents_sent, hgm]
  · show (l1 ++ m :: l2).length = (l1 ++ l2).length + 1
    simp [List.length_append]
    omega
  · exact List.mem_append_right _ (List.mem_cons_self _ _)

def msgM : InMsg := ⟨"m1", BodyKind.malformed⟩

theorem c7_malformed_envelope_witness :
    msgM.body = BodyKind.malformed
    ∧ groupMessages ([] ++ msgM :: []) = groupMessages ([] ++ [])
    ∧ (doRunEvents ([] ++ msgM :: [])).sent = (doRunEvents ([] ++ [])).sent
    ∧ (doRunEvents ([] ++ msgM :: [])).received = ([] ++ [] : List InMsg).length + 1
    ∧ msgM ∈ (doRunEvents ([] ++ msgM :: [])).deleted := by
  refine ⟨by decide, ?_⟩
  have h := c7_malformed_envelope [] [] msgM (by decide)
  exact ⟨h.1, h.2.1, h.2.2.1, h.2.2.2.1⟩

/-! ## The delivery handler (src/trigger.js)

`run` delegates to `doRun`, which walks the received messages
sequentially; `processMessage` parses the body, follows a `swapS3Url`
swap pointer through `deserialize` (which, on a successful blob fetch,
installs a `cleanup` deletion callback on the message it was handed and
returns the downloaded body for a recursive `processMessage`; on a failed
fetch it degrades to `{ contentBusId }`), appends `updates` through the
media log, or logs a warning when no updates are present. `doRun` catches
a throwing message, records its `messageId` in `batchItemFailures`, and
continues; the cleanup callback is invoked only after `processMessage`
returned without error. -/

/-- The parse/resolution shape of a delivery-handler message body. A body
whose JSON is invalid is `malformed` (the `JSON.parse` throws inside the
per-message try). `plain cbid updates` is a body with a `contentBusId`
and an optional `updates` array (`none` = field absent/falsy, the warn
branch). `swapped cbid url fetched` is a body with a `swapS3Url` pointer
(which takes precedence over any inline `updates`); `fetched` is the
parse shape of the blob the pointer resolves to, `none` when the blob
fetch fails. -/
inductive MsgBody where
  | malformed : MsgBody
  | plain (contentBusId : String) (updates : Option (List MediaRecord)) : MsgBody
  | swapped (contentBusId : String) (swapS3Url : String) (fetched : Option MsgBody) : MsgBody

/-- The observable outcome of one `processMessage` call: whether it
returned normally (`ok = false` means an exception propagated), the
`mediaLog.append` calls attempted (contentBusId and updates), the
warnings logged, and the cleanup callback installed on the message object
`doRun` holds (the url whose blob it would delete). `af cbid recs = true`
models an environment in which that `append` call throws. -/
structure ProcOut where
  ok : Bool
  appends : List (String × List MediaRecord)
  warns : Nat
  cleanup : Option String
deriving DecidableEq, Repr

def processMessage (af : String → List MediaRecord → Bool) : MsgBody → ProcOut
  | MsgBody.malformed => ⟨false, [], 0, none⟩
  | MsgBody.plain _ none => ⟨true, [], 1, none⟩
  | MsgBody.plain cbid (some recs) =>
    if af cbid recs then ⟨false, [(cbid, recs)], 0, none⟩
    else ⟨true, [(cbid, recs)], 0, none⟩
  | MsgBody.swapped _ _ none => ⟨true, [], 1, none⟩
  | MsgBody.swapped _ url (some inner) =>
    let r := processMessage af inner
    ⟨r.ok, r.appends, r.warns, some url⟩

/-- The failed-fetch fallback is literally the recursion on the
`{ contentBusId }` body `deserialize` substitutes: both land in the
warn branch. -/
theorem processMessage_swap_fallback (af : String → List MediaRecord → Bool)
    (cbid url : String) :
    processMessage af (MsgBody.swapped cbid url none)
      = processMessage af (MsgBody.plain cbid none) := rfl

structure TrigMsg where
  messageId : String
  body : MsgBody

/-- Externally visible side effects of the delivery handler, in order. -/
inductive TEv where
  | append (contentBusId : String) (updates : List MediaRecord)
  | deleteBlob (url : String)
deriving DecidableEq, Repr

/-- The events one message contributes: its attempted appends, then — only
when processing succeeded — the deletion of its swapped-out blob. -/
def msgEvents (af : String → List MediaRecord → Bool) (m : TrigMsg) : List TEv :=
  let r := processMessage af m.body
  r.appends.map (fun a => TEv.append a.1 a.2)
    ++ (if r.ok then (r.cleanup.map TEv.deleteBlob).toList else [])

structure TrigResult where
  batchItemFailures : List String
  events : List TEv
deriving DecidableEq, Repr

/-- One iteration of `doRun`'s `for (const message of messages)` loop:
try `processMessage` then `message.cleanup()`; on a throw, push the
message's `itemIdentifier` and continue. -/
def trigStep (af : String → List MediaRecord → Bool) (acc : TrigResult)
    (m : TrigMsg) : TrigResult :=
  let r := processMessage af m.body
  ⟨acc.batchItemFailures ++ (if r.ok then [] else [m.messageId]),
    acc.events ++ msgEvents af m⟩

def doRunTrigger (af : String → List MediaRecord → Bool)
    (msgs : List TrigMsg) : TrigResult :=
  msgs.foldl (trigStep af) ⟨[], []⟩

structure HttpResponse where
  status : Nat
  body : TrigResult
deriving DecidableEq, Repr

/-- `run`: always a 200 response whose JSON body is `doRun`'s result. -/
def runTrigger (af : String → List MediaRecord → Bool)
    (msgs : List TrigMsg) : HttpResponse :=
  ⟨200, doRunTrigger af msgs⟩

theorem doRunTrigger_foldl (af : String → List MediaRecord → Bool) :
    ∀ (msgs : List TrigMsg) (acc : TrigResult),
    msgs.foldl (trigStep af) acc =
      ⟨acc.batchItemFailures
          ++ (msgs.filter (fun m => !(processMessage af m.body).ok)).map TrigMsg.messageId,
        acc.events ++ msgs.flatMap (msgEvents af)⟩
  | [], acc => by simp
  | m :: msgs, acc => by
    rw [List.foldl_cons, doRunTrigger_foldl af msgs]
    unfold trigStep
    cases hok : (processMessage af m.body).ok <;>
      simp [hok, List.filter_cons, List.flatMap_cons]

theorem doRunTrigger_eq (af : String → List MediaRecord → Bool)
    (msgs : List TrigMsg) :
    doRunTrigger af msgs =
      ⟨(msgs.filter (fun m => !(processMessage af m.body).ok)).map TrigMsg.messageId,
        msgs.flatMap (msgEvents af)⟩ := by
  unfold doRunTrigger
  rw [doRunTrigger_foldl af msgs ⟨[], []⟩]
  simp

/-- C8: delivery handler failure isolation. Messages are processed
strictly sequentially; the failure list is exactly the identifiers of the
messages whose processing threw, in order — so one message's failure
removes nothing from the processing of the others, whose events all still
occur — and the entry point's response is always HTTP success (200)
carrying the structured failure list. -/
theorem c8_failure_isolation (af : String → List MediaRecord → Bool)
    (msgs : List TrigMsg) :
    (doRunTrigger af msgs).batchItemFailures
      = (msgs.filter (fun m => !(processMessage af m.body).ok)).map TrigMsg.messageId
    ∧ (doRunTrigger af msgs).events = msgs.flatMap (msgEvents af)
    ∧ (runTrigger af msgs).status = 200
    ∧ (runTrigger af msgs).body = doRunTrigger af msgs := by
  refine ⟨?_, ?_, rfl, rfl⟩
  · rw [doRunTrigger_eq]
  · rw [doRunTrigger_eq]

/-- C9: swap-resolution failure degrades gracefully. A message whose swap
pointer's blob fetch fails is processed as having no records: it returns
normally (no exception to the framework), makes no append call, logs one
warning, installs no cleanup — and its identifier is not reported in
`batchItemFailures`. -/
theorem c9_swap_fetch_failure (af : String → List MediaRecord → Bool)
    (cbid url : String) (msgs : List TrigMsg) (m : TrigMsg)
    (hnd : (msgs.map TrigMsg.messageId).Nodup) (hm : m ∈ msgs)
    (hb : m.body = MsgBody.swapped cbid url none) :
    processMessage af m.body = ⟨true, [], 1, none⟩
    ∧ msgEvents af m = []
    ∧ m.messageId ∉ (doRunTrigger af msgs).batchItemFailures := by
  have h1 : processMessage af m.body = ⟨true, [], 1, none⟩ := by
    rw [hb]
    rfl
  refine ⟨h1, by simp [msgEvents, h1], ?_⟩
  rw [doRunTrigger_eq]
  intro hin
  rcases List.mem_map.1 hin with ⟨m', hm', heq⟩
  rcases List.mem_filter.1 hm' with ⟨hm'mem, hok⟩
  have : m' = m := List.inj_on_of_nodup_map hnd hm'mem hm heq
  rw [this, h1] at hok
  cases hok

def msgS : TrigMsg := ⟨"s1", MsgBody.swapped "c" "u" none⟩

theorem c9_swap_fetch_failure_witness :
    ((([msgS] : List TrigMsg)).map TrigMsg.messageId).Nodup
    ∧ msgS ∈ [msgS]
    ∧ msgS.body = MsgBody.swapped "c" "u" none
    ∧ processMessage (fun _ _ => false) msgS.body = ⟨true, [], 1, none⟩
    ∧ msgS.messageId ∉ (doRunTrigger (fun _ _ => false) [msgS]).batchItemFailures := by
  refine ⟨by decide, List.mem_cons_self _ _, rfl, ?_, ?_⟩
  · exact (c9_swap_fetch_failure (fun _ _ => false) "c" "u" [msgS] msgS (by decide)
      (List.mem_cons_self _ _) rfl).1
  · exact (c9_swap_fetch_failure (fun _ _ => false) "c" "u" [msgS] msgS (by decide)
      (List.mem_cons_self _ _) rfl).2.2

/-- C10 (implicit): the swapped blob is deleted only after its message was
fully processed without error. For a swapped message that resolved
successfully, if processing throws, the run records the failure and emits
no `deleteBlob` — the blob is left in place for the transport-level
retry; if processing succeeds, the deletion is emitted after the appends. -/
theorem c10_cleanup_only_on_success (af : String → List MediaRecord → Bool)
    (id cbid url : String) (inner : MsgBody) :
    ((processMessage af (MsgBody.swapped cbid url (some inner))).ok = false →
      (doRunTrigger af [⟨id, MsgBody.swapped cbid url (some inner)⟩]).batchItemFailures
          = [id]
      ∧ (doRunTrigger af [⟨id, MsgBody.swapped cbid url (some inner)⟩]).events
          = (processMessage af inner).appends.map (fun a => TEv.append a.1 a.2)
      ∧ TEv.deleteBlob url
          ∉ (doRunTrigger af [⟨id, MsgBody.swapped cbid url (some inner)⟩]).events)
    ∧ ((processMessage af (MsgBody.swapped cbid url (some inner))).ok = true →
      (doRunTrigger af [⟨id, MsgBody.swapped cbid url (some inner)⟩]).batchItemFailures
          = []
      ∧ (doRunTrigger af [⟨id, MsgBody.swapped cbid url (some inner)⟩]).events
          = (processMessage af inner).appends.map (fun a => TEv.append a.1 a.2)
            ++ [TEv.deleteBlob url]) := by
  have hok : (processMessage af (MsgBody.swapped cbid url (some inner))).ok
      = (processMessage af inner).ok := rfl
  constructor
  · intro hfail
    rw [hok] at hfail
    refine ⟨?_, ?_, ?_⟩
    · rw [doRunTrigger_eq]
      simp [List.filter_cons, hok, hfail]
    · rw [doRunTrigger_eq]
      simp [msgEvents, processMessage, hfail]
    · rw [doRunTrigger_eq]
      simp only [List.flatMap_cons, List.flatMap_nil, List.append_nil]
      intro hin
      rw [show msgEvents af ⟨id, MsgBody.swapped cbid url (some inner)⟩
          = (processMessage af inner).appends.map (fun a => TEv.append a.1 a.2) from by
        simp [msgEvents, processMessage, hfail]] at hin
      rcases List.mem_map.1 hin with ⟨a, -, heq⟩
      cases heq
  · intro hsucc
    rw [hok] at hsucc
    refine ⟨?_, ?_⟩
    · rw [doRunTrigger_eq]
      simp [List.filter_cons, hok, hsucc]
    · rw [doRunTrigger_eq]
      simp [msgEvents, processMessage, hsucc]

theorem c10_cleanup_only_on_success_witness :
    (processMessage (fun _ _ => false)
        (MsgBody.swapped "c" "u" (some (MsgBody.plain "c" (some [recW]))))).ok = true
    ∧ (doRunTrigger (fun _ _ => false)
        [⟨"i1", MsgBody.swapped "c" "u" (some (MsgBody.plain "c" (some [recW])))⟩]).batchItemFailures
        = []
    ∧ (doRunTrigger (fun _ _ => false)
        [⟨"i1", MsgBody.swapped "c" "u" (some (MsgBody.plain "c" (some [recW])))⟩]).events
        = (processMessage (fun _ _ => false)
            (MsgBody.plain "c" (some [recW]))).appends.map (fun a => TEv.append a.1 a.2)
          ++ [TEv.deleteBlob "u"] := by
  refine ⟨by decide, ?_, ?_⟩
  · exact ((c10_cleanup_only_on_success (fun _ _ => false) "i1" "c" "u"
      (MsgBody.plain "c" (some [recW]))).2 (by decide)).1
  · exact ((c10_cleanup_only_on_success (fun _ _ => false) "i1" "c" "u"
      (MsgBody.plain "c" (some [recW]))).2 (by decide)).2

end MediaLogModel
